import Mathlib

/-!
# SOCDOS: an in-memory directory tree with MS-DOS-like limits

A shallow embedding of `src/SOCDOS.c` and the properties of its directory tree,
navigator and line editor.

Conventions of the embedding.

* A C string is the list of its characters before the terminating NUL (`CStr`).
* A pointer is `Option Nat`: `none` is `NULL`, `some a` is the address `a`.
  Directory objects live in the list `FileSystem.dirs`; address `0` is the member
  `fs->root`, every later address is an object obtained from `malloc`, in allocation
  order.  `File` objects live in `FileSystem.files` in the same way.
* `malloc` is taken to succeed (on failure the program leaves through `exit`).
* Undefined behaviour (a write past the end of a buffer, a dereference of a pointer
  that is not an object) makes the embedded function return `none`.
* What `printf` writes is returned as the list of the strings printed, one per call.
* The standard input of the editor is the list of the strings that successive calls of
  `fgets` deliver; when the list is empty `fgets` returns `NULL`. A command line is
  given to `handle_command` as the list of its white-space separated words.
* The member `ram` of `FileSystem` is cleared once and never read; it is left out.
-/

namespace SOCDOS

/-- A C string: the characters before the terminating NUL. -/
abbrev CStr := List Char

/-- A pointer: `none` is `NULL`. -/
abbrev Ptr := Option Nat

/-- Output of the program: one string per `printf`. -/
abbrev Output := List CStr

def MAX_NAME_LENGTH : Nat := 12

def MAX_FILES : Nat := 64

def MAX_FILE_SIZE : Nat := 1024 * 32

/-- Size of the `path` buffer of `handle_command`. -/
def PATH_SIZE : Nat := 256

/-- Size of the `cmd` buffer of `handle_command`. -/
def CMD_SIZE : Nat := 256

/-- The `struct File`: `data` is the content of the allocated buffer, so that
`data.length` is the number of bytes that were asked of `malloc`. -/
structure File where
  name : CStr
  data : List Char
  size : Nat
deriving DecidableEq, Repr

/-- An array of `MAX_FILES` pointers. -/
abbrev Slots := { l : List Ptr // l.length = MAX_FILES }

/-- The array write `a[i] = p`. -/
def Slots.write (s : Slots) (i : Nat) (p : Ptr) : Slots :=
  ⟨s.1.set i p, by simp [s.2]⟩

/-- The array read `a[i]`; outside the array the read is undefined. -/
def Slots.read (s : Slots) (i : Nat) : Option Ptr := s.1[i]?

/-- Content of an array that was never written (the value is never read). -/
def Slots.fresh : Slots := ⟨List.replicate MAX_FILES none, by simp⟩

/-- The `struct Directory`. -/
structure Directory where
  name : CStr
  parent : Ptr
  subdirs : Slots
  files : Slots
  subdir_count : Nat
  file_count : Nat
deriving DecidableEq

/-- The child collection of a directory: the first `subdir_count` slots of `subdirs`. -/
def Directory.children (d : Directory) : List Ptr := d.subdirs.1.take d.subdir_count

/-- The entry collection of a directory: the first `file_count` slots of `files`. -/
def Directory.entries (d : Directory) : List Ptr := d.files.1.take d.file_count

/-- The `struct FileSystem` together with the objects allocated so far. -/
structure FileSystem where
  dirs : List Directory
  files : List File
  current_dir : Ptr
deriving DecidableEq

/-- Dereference of a pointer. -/
def deref {α : Type} (heap : List α) (p : Ptr) : Option α :=
  match p with
  | none => none
  | some a => heap[a]?

/-- Assignment through a pointer. -/
def store {α : Type} (heap : List α) (p : Ptr) (v : α) : Option (List α) :=
  match p with
  | none => none
  | some a => if a < heap.length then some (heap.set a v) else none

/-- Runs `body i` for the indices of a `for` loop, in order, and collects the results. -/
def collect {β : Type} (body : Nat → Option β) : List Nat → Option (List β)
  | [] => some []
  | i :: is =>
    match body i with
    | none => none
    | some b =>
      match collect body is with
      | none => none
      | some bs => some (b :: bs)

/-- The function `init_filesystem`. -/
def init_filesystem : FileSystem :=
  { dirs := [{ name := "root".toList, parent := none, subdirs := Slots.fresh,
               files := Slots.fresh, subdir_count := 0, file_count := 0 }]
    files := []
    current_dir := some 0 }

/-- The object that `create_directory` initialises. -/
def new_directory (parent : Ptr) (name : CStr) : Directory :=
  { name := name, parent := parent, subdirs := Slots.fresh, files := Slots.fresh,
    subdir_count := 0, file_count := 0 }

/-- The function `create_directory`: `strcpy` into `name[MAX_NAME_LENGTH]` is defined
when the string and its terminator fit. Returns the new heap and the new address. -/
def create_directory (dirs : List Directory) (parent : Ptr) (name : CStr) :
    Option (List Directory × Ptr) :=
  if name.length < MAX_NAME_LENGTH then
    some (dirs ++ [new_directory parent name], some dirs.length)
  else none

/-- The function `create_file`: `data` is what can be read at the source pointer;
`memcpy` reads `size` bytes of it. -/
def create_file (files : List File) (name : CStr) (data : List Char) (size : Nat) :
    Option (List File × Ptr) :=
  if name.length < MAX_NAME_LENGTH then
    if size ≤ data.length then
      some (files ++ [{ name := name, data := data.take size, size := size }],
            some files.length)
    else none
  else none

/-- The assignment `d.subdirs[d.subdir_count++] = subdir`. -/
def Directory.with_subdir (d : Directory) (subdir : Ptr) : Directory :=
  { d with subdirs := d.subdirs.write d.subdir_count subdir,
           subdir_count := d.subdir_count + 1 }

/-- The assignment `d.files[d.file_count++] = file`. -/
def Directory.with_file (d : Directory) (file : Ptr) : Directory :=
  { d with files := d.files.write d.file_count file,
           file_count := d.file_count + 1 }

/-- The function `add_directory`. -/
def add_directory (dirs : List Directory) (parent subdir : Ptr) :
    Option (List Directory × Output) :=
  match deref dirs parent with
  | none => none
  | some d =>
    if d.subdir_count < MAX_FILES then
      match store dirs parent (d.with_subdir subdir) with
      | none => none
      | some dirs1 => some (dirs1, [])
    else
      some (dirs, ["Cannot add more directories. Maximum limit reached.\n".toList])

/-- The function `add_file`. -/
def add_file (dirs : List Directory) (dir file : Ptr) :
    Option (List Directory × Output) :=
  match deref dirs dir with
  | none => none
  | some d =>
    if d.file_count < MAX_FILES then
      match store dirs dir (d.with_file file) with
      | none => none
      | some dirs1 => some (dirs1, [])
    else
      some (dirs, ["Cannot add more files. Maximum limit reached.\n".toList])

/-- The line of `list_directory` for a child directory called `name`. -/
def directory_line (name : CStr) : CStr := "  Directory: ".toList ++ name ++ "\n".toList

/-- The line `list_directory` prints for the entry in slot `i`. -/
def file_line (files : List File) (d : Directory) (i : Nat) : Option CStr :=
  match d.files.read i with
  | none => none
  | some p =>
    match deref files p with
    | none => none
    | some f => some ("  File: ".toList ++ f.name ++ "\n".toList)

/-- The line `list_directory` prints for the child in slot `i`. -/
def subdir_line (dirs : List Directory) (d : Directory) (i : Nat) : Option CStr :=
  match d.subdirs.read i with
  | none => none
  | some p =>
    match deref dirs p with
    | none => none
    | some sd => some (directory_line sd.name)

/-- The function `list_directory`. -/
def list_directory (dirs : List Directory) (files : List File) (dir : Ptr) :
    Option Output :=
  match deref dirs dir with
  | none => none
  | some d =>
    match collect (file_line files d) (List.range d.file_count) with
    | none => none
    | some fl =>
      match collect (subdir_line dirs d) (List.range d.subdir_count) with
      | none => none
      | some dl => some (("Directory: ".toList ++ d.name ++ "\n".toList) :: (fl ++ dl))

/-- The scan of `change_directory` over the remaining indices: `some (some p)` when the
child `p` is the first whose name is `path`, `some none` when the loop runs out. -/
def change_directory_scan (dirs : List Directory) (d : Directory) (path : CStr) :
    List Nat → Option (Option Ptr)
  | [] => some none
  | i :: is =>
    match d.subdirs.read i with
    | none => none
    | some p =>
      match deref dirs p with
      | none => none
      | some sd =>
        if sd.name = path then some (some p)
        else change_directory_scan dirs d path is

/-- The function `change_directory`. -/
def change_directory (fs : FileSystem) (path : CStr) : Option (FileSystem × Output) :=
  match deref fs.dirs fs.current_dir with
  | none => none
  | some d =>
    if path = "..".toList then
      match d.parent with
      | some a => some ({ fs with current_dir := some a }, [])
      | none => some (fs, ["Already at root directory.\n".toList])
    else
      match change_directory_scan fs.dirs d path (List.range d.subdir_count) with
      | none => none
      | some (some p) => some ({ fs with current_dir := p }, [])
      | some none => some (fs, ["Directory not found: ".toList ++ path ++ "\n".toList])

/-- The function `get_current_path`; `path` is what the caller's buffer holds, the
result what it holds afterwards (the caller owns the buffer and its capacity). The
first argument bounds the depth of the recursion. -/
def get_current_path (dirs : List Directory) : Nat → Ptr → CStr → Option CStr
  | 0, _, _ => none
  | fuel + 1, dir, path =>
    match deref dirs dir with
    | none => none
    | some d =>
      match d.parent with
      | some a =>
        match get_current_path dirs fuel (some a) path with
        | none => none
        | some path1 => some ((path1 ++ "/".toList) ++ d.name)
      | none => some (path ++ d.name)

/-- The scan of `find_file` over the remaining indices. -/
def find_file_scan (files : List File) (d : Directory) (name : CStr) :
    List Nat → Option Ptr
  | [] => some none
  | i :: is =>
    match d.files.read i with
    | none => none
    | some p =>
      match deref files p with
      | none => none
      | some f =>
        if f.name = name then some p
        else find_file_scan files d name is

/-- The function `find_file`: `some none` is the result `NULL`. -/
def find_file (dirs : List Directory) (files : List File) (dir : Ptr) (name : CStr) :
    Option Ptr :=
  match deref dirs dir with
  | none => none
  | some d => find_file_scan files d name (List.range d.file_count)

/-- How the loop of `edit_file` was left. -/
inductive EditExit where
  | saved
  | cancelled
  | endOfInput
  | sizeLimit
deriving DecidableEq, Repr

/-- What `edit_file` leaves behind. -/
structure EditResult where
  file : File
  stdin : List CStr
  out : Output
  exit : EditExit
deriving DecidableEq

/-- The call `memcpy(data + off, src, strlen(src))` on a buffer of `data.length` bytes. -/
def memcpy_at (data : List Char) (off : Nat) (src : List Char) : Option (List Char) :=
  if off + src.length ≤ data.length then
    some (data.take off ++ src ++ data.drop (off + src.length))
  else none

/-- The loop of `edit_file`, entered with the value of `total_size`, what was printed
so far and the input not yet read. -/
def edit_loop (file : File) (total_size : Nat) (out : Output) :
    List CStr → Option EditResult
  | [] =>
    if total_size ≥ MAX_FILE_SIZE - 1 then
      some ⟨file, [], out ++ ["File size limit reached.\n".toList], .sizeLimit⟩
    else
      some ⟨file, [], out ++ [">> ".toList], .endOfInput⟩
  | buffer :: rest =>
    if total_size ≥ MAX_FILE_SIZE - 1 then
      some ⟨file, buffer :: rest, out ++ ["File size limit reached.\n".toList], .sizeLimit⟩
    else if buffer = "SAVE\n".toList then
      if total_size < file.data.length then
        some ⟨{ file with data := file.data.set total_size (Char.ofNat 0),
                          size := total_size },
              rest, out ++ [">> ".toList, "File saved.\n".toList], .saved⟩
      else none
    else if buffer = "CANCEL\n".toList then
      some ⟨file, rest, out ++ [">> ".toList, "Editing cancelled.\n".toList], .cancelled⟩
    else if total_size + buffer.length < MAX_FILE_SIZE then
      match memcpy_at file.data total_size buffer with
      | none => none
      | some data1 =>
        edit_loop { file with data := data1 } (total_size + buffer.length)
          (out ++ [">> ".toList]) rest
    else
      edit_loop file total_size
        (out ++ [">> ".toList, "Not enough space to add more data.\n".toList]) rest

/-- The function `edit_file`. -/
def edit_file (file : File) (stdin : List CStr) : Option EditResult :=
  edit_loop file 0
    ["Editing file '".toList ++ file.name ++
      "'. Type 'SAVE' to save changes and 'CANCEL' to discard changes.\n".toList] stdin

/-- What `handle_command` leaves behind; `exited` is set when the process was left
through `exit`. -/
structure Step where
  fs : FileSystem
  out : Output
  stdin : List CStr
  exited : Bool
deriving DecidableEq

/-- The branch `mkdir` of `handle_command`. -/
def do_mkdir (fs : FileSystem) (arg1 : CStr) (stdin : List CStr) : Option Step :=
  match create_directory fs.dirs fs.current_dir arg1 with
  | none => none
  | some (dirs1, new_dir) =>
    match add_directory dirs1 fs.current_dir new_dir with
    | none => none
    | some (dirs2, out) =>
      some ⟨{ fs with dirs := dirs2 },
            out ++ ["Directory '".toList ++ arg1 ++ "' created.\n".toList], stdin, false⟩

/-- The branch `touch` of `handle_command`. -/
def do_touch (fs : FileSystem) (arg1 arg2 : CStr) (stdin : List CStr) : Option Step :=
  match create_file fs.files arg1 (arg2 ++ [Char.ofNat 0]) (arg2.length + 1) with
  | none => none
  | some (files1, new_file) =>
    match add_file fs.dirs fs.current_dir new_file with
    | none => none
    | some (dirs1, out) =>
      some ⟨{ fs with dirs := dirs1, files := files1 },
            out ++ ["File '".toList ++ arg1 ++ "' created.\n".toList], stdin, false⟩

/-- The branch `pwd` of `handle_command`: the buffer `path` has `PATH_SIZE` bytes. -/
def do_pwd (fs : FileSystem) (stdin : List CStr) : Option Step :=
  match get_current_path fs.dirs fs.dirs.length fs.current_dir [] with
  | none => none
  | some path =>
    if path.length < PATH_SIZE then
      some ⟨fs, ["Current directory: /".toList ++ path ++ "\n".toList], stdin, false⟩
    else none

/-- The branch `edit` of `handle_command`. -/
def do_edit (fs : FileSystem) (arg1 : CStr) (stdin : List CStr) : Option Step :=
  match find_file fs.dirs fs.files fs.current_dir arg1 with
  | none => none
  | some none =>
    some ⟨fs, ["File not found: ".toList ++ arg1 ++ "\n".toList], stdin, false⟩
  | some (some a) =>
    match fs.files[a]? with
    | none => none
    | some file =>
      match edit_file file stdin with
      | none => none
      | some r => some ⟨{ fs with files := fs.files.set a r.file }, r.out, r.stdin, false⟩

/-- The function `handle_command`, on the words of the command line: `sscanf` with
`"%s %s %s"` stores the first three white-space separated words of `command` in `cmd`,
`arg1` and `arg2` and returns how many it stored. A word that does not fit its buffer
is written past its end; without any word `cmd` is read uninitialised. -/
def handle_command (fs : FileSystem) (words : List CStr) (stdin : List CStr) :
    Option Step :=
  match words with
  | [] => none
  | cmd :: args =>
    let arg1 := args.getD 0 []
    let arg2 := args.getD 1 []
    let result := min words.length 3
    if ¬ (cmd.length < CMD_SIZE ∧ arg1.length < MAX_NAME_LENGTH ∧
          arg2.length < MAX_NAME_LENGTH) then none
    else if cmd = "mkdir".toList ∧ result ≥ 2 then do_mkdir fs arg1 stdin
    else if cmd = "touch".toList ∧ result ≥ 3 then do_touch fs arg1 arg2 stdin
    else if cmd = "ls".toList then
      match list_directory fs.dirs fs.files fs.current_dir with
      | none => none
      | some out => some ⟨fs, out, stdin, false⟩
    else if cmd = "cd".toList ∧ result ≥ 2 then
      match change_directory fs arg1 with
      | none => none
      | some (fs1, out) => some ⟨fs1, out, stdin, false⟩
    else if cmd = "pwd".toList then do_pwd fs stdin
    else if cmd = "edit".toList ∧ result ≥ 2 then do_edit fs arg1 stdin
    else if cmd = "quit".toList then
      some ⟨fs, ["Exiting program.\n".toList], stdin, true⟩
    else some ⟨fs, ["Unknown command: ".toList ++ cmd ++ "\n".toList], stdin, false⟩

/-- A line of `MAX_FILE_SIZE - 1` characters, the longest `fgets` delivers. -/
def limit_line : CStr := List.replicate 32766 'a' ++ "\n".toList

/-- A file whose buffer has `MAX_FILE_SIZE` bytes. -/
def limit_file : File := ⟨"f".toList, List.replicate MAX_FILE_SIZE (Char.ofNat 0), 0⟩

/-- The words of the command `mkdir <name>`. -/
def mkdir_words (name : CStr) : List CStr := ["mkdir".toList, name]

/-- The words of the command `cd <name>`. -/
def cd_words (name : CStr) : List CStr := ["cd".toList, name]

/-- The commands that create the chain `names` below the current directory and walk
down it: `mkdir n1`, `cd n1`, `mkdir n2`, `cd n2`, and so on. -/
def nest_commands : List CStr → List (List CStr)
  | [] => []
  | name :: names => mkdir_words name :: cd_words name :: nest_commands names

/-- Walking up the parent links from `p` meets directories called `names`, nearest
first, and then the root as `init_filesystem` makes it: called `root`, without parent. -/
def chain_to_root (dirs : List Directory) : Ptr → List CStr → Bool
  | p, [] =>
    match deref dirs p with
    | none => false
    | some d => decide (d.name = "root".toList) && d.parent.isNone
  | p, name :: names =>
    match deref dirs p with
    | none => false
    | some d => decide (d.name = name) && d.parent.isSome && chain_to_root dirs d.parent names

/-- The state after `mkdir a`, `cd a`, `mkdir b`, `cd b` from the initial state. -/
def tree_a_b : FileSystem :=
  { dirs := [(new_directory none "root".toList).with_subdir (some 1),
             (new_directory (some 0) "a".toList).with_subdir (some 2),
             new_directory (some 1) "b".toList]
    files := []
    current_dir := some 2 }

/-- The state after `mkdir a` from the initial state. -/
def tree_a : FileSystem :=
  { dirs := [(new_directory none "root".toList).with_subdir (some 1),
             new_directory (some 0) "a".toList]
    files := []
    current_dir := some 0 }

/-- Successive calls of `handle_command`, each on the state and the input that the one
before left, until the commands run out or the process exits; the output of the calls
is accumulated (the prompt that `main` prints between the calls is not part of it). -/
def run_commands (fs : FileSystem) (stdin : List CStr) (out : Output) :
    List (List CStr) → Option Step
  | [] => some ⟨fs, out, stdin, false⟩
  | words :: rest =>
    match handle_command fs words stdin with
    | none => none
    | some s =>
      if s.exited then some ⟨s.fs, out ++ s.out, s.stdin, true⟩
      else run_commands s.fs s.stdin (out ++ s.out) rest

/-- The state after `mkdir b`, `mkdir a`, `mkdir a` from the initial state: two children
of the root are called `a`. -/
def tree_b_a_a : FileSystem :=
  { dirs := [(((new_directory none "root".toList).with_subdir (some 1)).with_subdir
               (some 2)).with_subdir (some 3),
             new_directory (some 0) "b".toList,
             new_directory (some 0) "a".toList,
             new_directory (some 0) "a".toList]
    files := []
    current_dir := some 0 }

/-- The state after `touch f abc`, `mkdir a` from the initial state. -/
def tree_f_a : FileSystem :=
  { dirs := [((new_directory none "root".toList).with_file (some 0)).with_subdir (some 1),
             new_directory (some 0) "a".toList]
    files := [⟨"f".toList, "abc".toList ++ [Char.ofNat 0], 4⟩]
    current_dir := some 0 }

/-- The value of `total_size` when the loop of `edit_file`, entered with `total_size`
and the given input, is left: the tests of the loop on `total_size` and on the line
read, without the file. -/
def edit_total_size (total_size : Nat) : List CStr → Nat
  | [] => total_size
  | buffer :: rest =>
    if total_size ≥ MAX_FILE_SIZE - 1 then total_size
    else if buffer = "SAVE\n".toList then total_size
    else if buffer = "CANCEL\n".toList then total_size
    else if total_size + buffer.length < MAX_FILE_SIZE then
      edit_total_size (total_size + buffer.length) rest
    else edit_total_size total_size rest

/-- The directories that can be reached from the root, at address `0`, by following
child links. -/
inductive Reachable (dirs : List Directory) : Nat → Prop
  | root : Reachable dirs 0
  | child (a b : Nat) (d : Directory) :
      Reachable dirs a → dirs[a]? = some d → some b ∈ d.children → Reachable dirs b

/-- The invariant of the tree: the cursor is an object reachable from the root; no
counter exceeds `MAX_FILES`; every child slot in use holds an object whose parent link
is the directory of the slot; the root alone has no parent. -/
structure Wellformed (fs : FileSystem) : Prop where
  cursor : ∃ c, fs.current_dir = some c ∧ c < fs.dirs.length ∧ Reachable fs.dirs c
  counts : ∀ (a : Nat) (d : Directory), fs.dirs[a]? = some d →
    d.subdir_count ≤ MAX_FILES ∧ d.file_count ≤ MAX_FILES
  links : ∀ (a : Nat) (d : Directory) (i : Nat), fs.dirs[a]? = some d →
    i < d.subdir_count →
    ∃ (b : Nat) (sd : Directory), d.subdirs.read i = some (some b) ∧
      fs.dirs[b]? = some sd ∧ sd.parent = some a
  parent_null : ∀ (a : Nat) (d : Directory), fs.dirs[a]? = some d →
    (d.parent = none ↔ a = 0)

/-- A session with every kind of command: `mkdir a`, `cd a`, `touch f abc`, `mkdir b`,
`ls`, `pwd`, `edit f`, `cd b`, `cd ..`. -/
def session_commands : List (List CStr) :=
  [mkdir_words "a".toList, cd_words "a".toList,
   ["touch".toList, "f".toList, "abc".toList], mkdir_words "b".toList,
   ["ls".toList], ["pwd".toList], ["edit".toList, "f".toList],
   cd_words "b".toList, cd_words "..".toList]

/-- What the session leaves when the editor reads the line `CANCEL`. -/
def session_result : Step :=
  { fs :=
      { dirs := [(new_directory none "root".toList).with_subdir (some 1),
                 ((new_directory (some 0) "a".toList).with_file (some 0)).with_subdir (some 2),
                 new_directory (some 1) "b".toList]
        files := [⟨"f".toList, "abc".toList ++ [Char.ofNat 0], 4⟩]
        current_dir := some 1 }
    out := ["Directory 'a' created.\n".toList, "File 'f' created.\n".toList,
            "Directory 'b' created.\n".toList, "Directory: a\n".toList,
            "  File: f\n".toList, "  Directory: b\n".toList,
            "Current directory: /root/a\n".toList,
            "Editing file 'f'. Type 'SAVE' to save changes and 'CANCEL' to discard changes.\n".toList,
            ">> ".toList, "Editing cancelled.\n".toList]
    stdin := []
    exited := false }

/-- Every parent link points to a lower address: directories are allocated after their
parent, so the parent links cannot form a cycle. -/
def ParentsBelow (dirs : List Directory) : Prop :=
  ∀ (a : Nat) (d : Directory) (b : Nat), dirs[a]? = some d → d.parent = some b → b < a

/-- Every entry slot in use holds the address of a file object. -/
def EntriesValid (dirs : List Directory) (files : List File) : Prop :=
  ∀ (a : Nat) (d : Directory) (i : Nat), dirs[a]? = some d → i < d.file_count →
    ∃ f, d.files.read i = some (some f) ∧ f < files.length

/-- The command lines `mkdir n`, `touch n d`, `cd n` and `ls` whose words fit the
buffers `arg1` and `arg2`. -/
def plain_command (words : List CStr) : Bool :=
  match words with
  | [cmd, arg1] =>
    (decide (cmd = "mkdir".toList) || decide (cmd = "cd".toList)) &&
      decide (arg1.length < MAX_NAME_LENGTH)
  | [cmd, arg1, arg2] =>
    decide (cmd = "touch".toList) && decide (arg1.length < MAX_NAME_LENGTH) &&
      decide (arg2.length < MAX_NAME_LENGTH)
  | [cmd] => decide (cmd = "ls".toList)
  | _ => false

/-! ## Memory and array lemmas -/

theorem lt_length_of_getElem? {α : Type} {heap : List α} {a : Nat} {v : α}
    (h : heap[a]? = some v) : a < heap.length := by
  rcases Nat.lt_or_ge a heap.length with h1 | h1
  · exact h1
  · rw [List.getElem?_eq_none h1] at h
    cases h

theorem take_succ_set {α : Type} (l : List α) (n : Nat) (x : α) (h : n < l.length) :
    (l.set n x).take (n + 1) = l.take n ++ [x] := by
  induction l generalizing n with
  | nil => simp at h
  | cons y ys ih =>
    cases n with
    | zero => simp
    | succ m =>
      have hm : m < ys.length := by simpa using h
      simp [List.set, ih m hm]

/-! ## Adding to a directory -/

/-- C2. `add_directory` on a parent that is an object: below `MAX_FILES` children the
child is appended at the end of the child collection, `subdir_count` grows by one and
nothing else of the parent or of the other objects changes; at `MAX_FILES` children the
capacity message is printed and no object changes. -/
theorem add_directory_spec (dirs : List Directory) (a : Nat) (d : Directory)
    (child : Ptr) (h : dirs[a]? = some d) :
    (d.subdir_count < MAX_FILES →
      ∃ d1, add_directory dirs (some a) child = some (dirs.set a d1, []) ∧
        d1.children = d.children ++ [child] ∧
        d1.subdir_count = d.subdir_count + 1 ∧
        d1.entries = d.entries ∧ d1.files = d.files ∧ d1.file_count = d.file_count ∧
        d1.name = d.name ∧ d1.parent = d.parent) ∧
    (¬ d.subdir_count < MAX_FILES →
      add_directory dirs (some a) child =
        some (dirs, ["Cannot add more directories. Maximum limit reached.\n".toList])) := by
  have ha : a < dirs.length := lt_length_of_getElem? h
  constructor
  · intro hlt
    refine ⟨d.with_subdir child, ?_, ?_, rfl, rfl, rfl, rfl, rfl, rfl⟩
    · simp [add_directory, deref, h, hlt, store, ha]
    · have hlen : d.subdir_count < d.subdirs.1.length := by rw [d.subdirs.2]; exact hlt
      simp only [Directory.children, Directory.with_subdir, Slots.write]
      exact take_succ_set d.subdirs.1 d.subdir_count child hlen
  · intro hge
    simp [add_directory, deref, h, hge]

/-- C2, at concrete directories: an empty root takes a child, a full one refuses it. -/
theorem add_directory_spec_witness :
    (∃ d1, add_directory init_filesystem.dirs (some 0) (some 7) =
        some (init_filesystem.dirs.set 0 d1, []) ∧ d1.children = [some 7]) ∧
    add_directory [{ name := "full".toList, parent := none, subdirs := Slots.fresh,
                     files := Slots.fresh, subdir_count := 64, file_count := 0 }]
        (some 0) (some 7) =
      some ([{ name := "full".toList, parent := none, subdirs := Slots.fresh,
               files := Slots.fresh, subdir_count := 64, file_count := 0 }],
            ["Cannot add more directories. Maximum limit reached.\n".toList]) := by
  constructor
  · obtain ⟨d1, h1, h2, _⟩ :=
      (add_directory_spec init_filesystem.dirs 0 _ (some 7) rfl).1 (by decide)
    exact ⟨d1, h1, by simpa [Directory.children] using h2⟩
  · exact (add_directory_spec _ 0 _ (some 7) rfl).2 (by decide)

/-- C3. `add_file` on a directory that is an object: below `MAX_FILES` entries the file
is appended at the end of the entry collection, `file_count` grows by one and the child
collection and everything else stay as they were; at `MAX_FILES` entries the capacity
message is printed and no object changes. -/
theorem add_file_spec (dirs : List Directory) (a : Nat) (d : Directory)
    (file : Ptr) (h : dirs[a]? = some d) :
    (d.file_count < MAX_FILES →
      ∃ d1, add_file dirs (some a) file = some (dirs.set a d1, []) ∧
        d1.entries = d.entries ++ [file] ∧
        d1.file_count = d.file_count + 1 ∧
        d1.children = d.children ∧ d1.subdirs = d.subdirs ∧
        d1.subdir_count = d.subdir_count ∧
        d1.name = d.name ∧ d1.parent = d.parent) ∧
    (¬ d.file_count < MAX_FILES →
      add_file dirs (some a) file =
        some (dirs, ["Cannot add more files. Maximum limit reached.\n".toList])) := by
  have ha : a < dirs.length := lt_length_of_getElem? h
  constructor
  · intro hlt
    refine ⟨d.with_file file, ?_, ?_, rfl, rfl, rfl, rfl, rfl, rfl⟩
    · simp [add_file, deref, h, hlt, store, ha]
    · have hlen : d.file_count < d.files.1.length := by rw [d.files.2]; exact hlt
      simp only [Directory.entries, Directory.with_file, Slots.write]
      exact take_succ_set d.files.1 d.file_count file hlen
  · intro hge
    simp [add_file, deref, h, hge]

/-- C3, at concrete directories: an empty root takes a file, a full one refuses it. -/
theorem add_file_spec_witness :
    (∃ d1, add_file init_filesystem.dirs (some 0) (some 3) =
        some (init_filesystem.dirs.set 0 d1, []) ∧ d1.entries = [some 3]) ∧
    add_file [{ name := "full".toList, parent := none, subdirs := Slots.fresh,
                files := Slots.fresh, subdir_count := 0, file_count := 64 }]
        (some 0) (some 3) =
      some ([{ name := "full".toList, parent := none, subdirs := Slots.fresh,
               files := Slots.fresh, subdir_count := 0, file_count := 64 }],
            ["Cannot add more files. Maximum limit reached.\n".toList]) := by
  constructor
  · obtain ⟨d1, h1, h2, _⟩ :=
      (add_file_spec init_filesystem.dirs 0 _ (some 3) rfl).1 (by decide)
    exact ⟨d1, h1, by simpa [Directory.entries] using h2⟩
  · exact (add_file_spec _ 0 _ (some 3) rfl).2 (by decide)

/-! ## Navigation -/

/-- C8. With the cursor on a directory that has no parent (the root), `change_directory`
with `..` prints the message of the root, leaves the whole state as it was, cursor
included, and the cursor is not `NULL` afterwards. -/
theorem change_directory_up_at_root (fs : FileSystem) (d : Directory)
    (hd : deref fs.dirs fs.current_dir = some d) (hp : d.parent = none) :
    ∃ fs1, change_directory fs "..".toList =
        some (fs1, ["Already at root directory.\n".toList]) ∧
      fs1 = fs ∧ fs1.current_dir = fs.current_dir ∧ fs1.current_dir ≠ none := by
  refine ⟨fs, ?_, rfl, rfl, ?_⟩
  · simp [change_directory, hd, hp]
  · intro hnull
    rw [hnull] at hd
    simp [deref] at hd

/-- C8, at the initial state. -/
theorem change_directory_up_at_root_witness :
    ∃ fs1, change_directory init_filesystem "..".toList =
        some (fs1, ["Already at root directory.\n".toList]) ∧
      fs1 = init_filesystem ∧ fs1.current_dir = init_filesystem.current_dir ∧
      fs1.current_dir ≠ none :=
  change_directory_up_at_root init_filesystem _ rfl rfl

theorem change_directory_scan_none (dirs : List Directory) (d : Directory) (path : CStr)
    (is : List Nat)
    (h : ∀ i ∈ is, ∃ p sd, d.subdirs.read i = some p ∧ deref dirs p = some sd ∧
      sd.name ≠ path) :
    change_directory_scan dirs d path is = some none := by
  induction is with
  | nil => rfl
  | cons i is ih =>
    obtain ⟨p, sd, h1, h2, h3⟩ := h i (List.mem_cons_self i is)
    have ih1 := ih (fun j hj => h j (List.mem_cons_of_mem i hj))
    simp [change_directory_scan, h1, h2, h3, ih1]

/-- C9. When `path` is not `..` and every child of the current directory has another
name, `change_directory` prints that the directory was not found and leaves the state,
cursor included, as it was; `get_current_path` of the cursor and the command `pwd`
give after the call what they gave before. -/
theorem change_directory_not_found (fs : FileSystem) (d : Directory) (path : CStr)
    (hd : deref fs.dirs fs.current_dir = some d) (hne : path ≠ "..".toList)
    (hno : ∀ i, i < d.subdir_count →
      ∃ p sd, d.subdirs.read i = some p ∧ deref fs.dirs p = some sd ∧ sd.name ≠ path) :
    ∃ fs1, change_directory fs path =
        some (fs1, ["Directory not found: ".toList ++ path ++ "\n".toList]) ∧
      fs1.current_dir = fs.current_dir ∧ fs1 = fs ∧
      (∀ fuel buf, get_current_path fs1.dirs fuel fs1.current_dir buf =
        get_current_path fs.dirs fuel fs.current_dir buf) ∧
      (∀ stdin, do_pwd fs1 stdin = do_pwd fs stdin) := by
  refine ⟨fs, ?_, rfl, rfl, fun _ _ => rfl, fun _ => rfl⟩
  have hscan := change_directory_scan_none fs.dirs d path (List.range d.subdir_count)
    (fun i hi => hno i (List.mem_range.1 hi))
  unfold change_directory
  simp only [hd]
  rw [if_neg hne, hscan]

/-- C9, at the tree with the single directory `a` below the root and the segment `zz`. -/
theorem change_directory_not_found_witness :
    (run_commands init_filesystem [] [] [mkdir_words "a".toList]).map (fun s => s.fs) =
      some tree_a ∧
    ∃ fs1, change_directory tree_a "zz".toList =
        some (fs1, ["Directory not found: ".toList ++ "zz".toList ++ "\n".toList]) ∧
      fs1.current_dir = tree_a.current_dir ∧ fs1 = tree_a ∧
      (∀ fuel buf, get_current_path fs1.dirs fuel fs1.current_dir buf =
        get_current_path tree_a.dirs fuel tree_a.current_dir buf) ∧
      (∀ stdin, do_pwd fs1 stdin = do_pwd tree_a stdin) :=
  ⟨by decide, change_directory_not_found tree_a
    ((new_directory none "root".toList).with_subdir (some 1)) "zz".toList rfl (by decide)
    (fun i hi => by
      have hi0 : i = 0 := by
        have h1 : i < 1 := hi
        omega
      subst hi0
      exact ⟨some 1, new_directory (some 0) "a".toList, rfl, rfl, by decide⟩)⟩

/-! ## The editor -/

/-- C6. An edit session whose first line is `CANCEL` ends as cancelled and returns the
file as it was: name, buffer content and size. -/
theorem edit_file_cancel_first (file : File) (rest : List CStr) :
    ∃ r, edit_file file ("CANCEL\n".toList :: rest) = some r ∧
      r.exit = EditExit.cancelled ∧ r.file = file ∧
      r.file.data = file.data ∧ r.file.size = file.size ∧ r.stdin = rest := by
  have h : edit_file file ("CANCEL\n".toList :: rest) =
      some ⟨file, rest,
        ["Editing file '".toList ++ file.name ++
          "'. Type 'SAVE' to save changes and 'CANCEL' to discard changes.\n".toList] ++
        [">> ".toList, "Editing cancelled.\n".toList], EditExit.cancelled⟩ := by
    unfold edit_file edit_loop
    rw [if_neg (by decide), if_neg (by decide), if_pos rfl]
  exact ⟨_, h, rfl, rfl, rfl, rfl, rfl⟩

/-- C7. While the editor reads (`total_size` below `MAX_FILE_SIZE - 1`), a line that is
neither `SAVE` nor `CANCEL` and would bring the length above `MAX_FILE_SIZE` is dropped:
the warning is printed and the loop goes on to the next line with the same file (bytes
and size) and the same `total_size`. -/
theorem edit_loop_drops_line (file : File) (t : Nat) (out : Output) (line : CStr)
    (rest : List CStr) (ht : t < MAX_FILE_SIZE - 1)
    (hs : line ≠ "SAVE\n".toList) (hc : line ≠ "CANCEL\n".toList)
    (hbig : MAX_FILE_SIZE < t + line.length) :
    edit_loop file t out (line :: rest) =
      edit_loop file t
        (out ++ [">> ".toList, "Not enough space to add more data.\n".toList]) rest := by
  have h1 : ¬ t ≥ MAX_FILE_SIZE - 1 := by omega
  have h2 : ¬ t + line.length < MAX_FILE_SIZE := by omega
  rw [edit_loop, if_neg h1, if_neg hs, if_neg hc, if_neg h2]

/-- C7, at `total_size = 32766` and a line of three characters. -/
theorem edit_loop_drops_line_witness :
    edit_loop ⟨"f".toList, "abc".toList, 3⟩ 32766 [] ("xy\n".toList :: []) =
      edit_loop ⟨"f".toList, "abc".toList, 3⟩ 32766
        ([] ++ [">> ".toList, "Not enough space to add more data.\n".toList]) [] :=
  edit_loop_drops_line ⟨"f".toList, "abc".toList, 3⟩ 32766 [] "xy\n".toList []
    (by decide) (by decide) (by decide) (by decide)

/-- C4, the code at a cancelled session: after `touch f abc` and `edit f`, the lines
`xy` and `CANCEL` leave the buffer of the file holding `xy\n` where it held `abc`:
each line is copied into `file->data` as it is read. -/
theorem edit_cancel_overwrites_data :
    (run_commands init_filesystem ["xy\n".toList, "CANCEL\n".toList] []
        [["touch".toList, "f".toList, "abc".toList], ["edit".toList, "f".toList]]).map
      (fun s => s.fs.files) =
    some [⟨"f".toList, "xy\n".toList ++ [Char.ofNat 0], 4⟩] ∧
    (run_commands init_filesystem [] []
        [["touch".toList, "f".toList, "abc".toList]]).map (fun s => s.fs.files) =
    some [⟨"f".toList, "abc".toList ++ [Char.ofNat 0], 4⟩] := by
  constructor <;> decide

/-- The buffer of a file has the bytes it was created with: after `touch f abc` it has
four, and the line `hello` of an edit session is copied past its end. -/
theorem edit_writes_past_buffer :
    run_commands init_filesystem ["hello\n".toList, "SAVE\n".toList] []
      [["touch".toList, "f".toList, "abc".toList], ["edit".toList, "f".toList]] = none := by
  decide

theorem set_eq_take_cons_drop {α : Type} (l : List α) (n : Nat) (x : α) (h : n < l.length) :
    l.set n x = l.take n ++ x :: l.drop (n + 1) := by
  induction l generalizing n with
  | nil => simp at h
  | cons y ys ih =>
    cases n with
    | zero => simp
    | succ m =>
      have hm : m < ys.length := by simpa using h
      simp [List.set, ih m hm]

theorem memcpy_at_eq (data : List Char) (off : Nat) (src : List Char)
    (h : off + src.length ≤ data.length) :
    memcpy_at data off src = some (data.take off ++ src ++ data.drop (off + src.length)) := by
  simp [memcpy_at, h]

theorem memcpy_take (data : List Char) (off : Nat) (src : List Char)
    (h : off + src.length ≤ data.length) :
    (data.take off ++ src ++ data.drop (off + src.length)).take (off + src.length) =
      data.take off ++ src := by
  apply List.take_left'
  simp
  omega

theorem memcpy_drop (data : List Char) (off k : Nat) (src : List Char)
    (h : off + src.length ≤ data.length) :
    (data.take off ++ src ++ data.drop (off + src.length)).drop (off + src.length + k) =
      data.drop (off + src.length + k) := by
  have hl : (data.take off ++ src).length = off + src.length := by
    simp
    omega
  rw [List.drop_append_eq_append_drop, hl]
  simp [List.drop_drop]
  omega

theorem memcpy_length (data : List Char) (off : Nat) (src : List Char)
    (h : off + src.length ≤ data.length) :
    (data.take off ++ src ++ data.drop (off + src.length)).length = data.length := by
  simp
  omega

theorem edit_loop_lines_save (lines : List CStr) :
    ∀ (file : File) (t : Nat) (out : Output) (rest : List CStr),
      (∀ l ∈ lines, l ≠ "SAVE\n".toList ∧ l ≠ "CANCEL\n".toList) →
      t + lines.flatten.length < MAX_FILE_SIZE - 1 →
      t + lines.flatten.length < file.data.length →
      ∃ out1, edit_loop file t out (lines ++ "SAVE\n".toList :: rest) =
        some ⟨{ file with
                data := file.data.take t ++ lines.flatten ++
                  Char.ofNat 0 :: file.data.drop (t + lines.flatten.length + 1),
                size := t + lines.flatten.length }, rest, out1, EditExit.saved⟩ := by
  induction lines with
  | nil =>
    intro file t out rest _ ht hcap
    simp only [List.flatten_nil, List.length_nil, Nat.add_zero, List.nil_append,
      List.append_nil] at ht hcap ⊢
    have h1 : ¬ t ≥ MAX_FILE_SIZE - 1 := by omega
    refine ⟨out ++ [">> ".toList, "File saved.\n".toList], ?_⟩
    rw [edit_loop, if_neg h1, if_pos rfl, if_pos hcap, set_eq_take_cons_drop _ _ _ hcap]
  | cons l ls ih =>
    intro file t out rest hl ht hcap
    simp only [List.flatten_cons, List.length_append] at ht hcap ⊢
    obtain ⟨hs, hc⟩ := hl l (List.mem_cons_self l ls)
    have h1 : ¬ t ≥ MAX_FILE_SIZE - 1 := by omega
    have h2 : t + l.length < MAX_FILE_SIZE := by omega
    have h3 : t + l.length ≤ file.data.length := by omega
    obtain ⟨out1, hih⟩ := ih
      { file with data := (file.data.take t ++ l ++ file.data.drop (t + l.length)) }
      (t + l.length) (out ++ [">> ".toList]) rest
      (fun x hx => hl x (List.mem_cons_of_mem l hx)) (by omega)
      (by rw [memcpy_length _ _ _ h3]; omega)
    refine ⟨out1, ?_⟩
    rw [List.cons_append, edit_loop, if_neg h1, if_neg hs, if_neg hc, if_pos h2,
      memcpy_at_eq _ _ _ h3]
    simp only []
    rw [hih]
    simp only []
    rw [memcpy_take _ _ _ h3,
      show t + l.length + ls.flatten.length + 1 = t + l.length + (ls.flatten.length + 1)
        from by omega,
      memcpy_drop _ _ _ _ h3]
    simp [Nat.add_assoc]

/-- C5 as amended. For lines other than `SAVE` and `CANCEL` whose total length is below
`MAX_FILE_SIZE - 1` and below the number of bytes of the buffer of the file, the session
that reads them and then `SAVE` ends as saved: the buffer starts with the lines in
order, followed by a NUL, and `size` is their total length. -/
theorem edit_file_lines_save (file : File) (lines : List CStr) (rest : List CStr)
    (hl : ∀ l ∈ lines, l ≠ "SAVE\n".toList ∧ l ≠ "CANCEL\n".toList)
    (ht : lines.flatten.length < MAX_FILE_SIZE - 1)
    (hcap : lines.flatten.length < file.data.length) :
    ∃ r, edit_file file (lines ++ "SAVE\n".toList :: rest) = some r ∧
      r.exit = EditExit.saved ∧
      r.file.size = lines.flatten.length ∧
      r.file.data =
        lines.flatten ++ Char.ofNat 0 :: file.data.drop (lines.flatten.length + 1) ∧
      r.file.data.take r.file.size = lines.flatten ∧
      r.file.name = file.name ∧ r.stdin = rest := by
  obtain ⟨out1, h⟩ := edit_loop_lines_save lines file 0
    ["Editing file '".toList ++ file.name ++
      "'. Type 'SAVE' to save changes and 'CANCEL' to discard changes.\n".toList] rest hl
    (by omega) (by omega)
  refine ⟨_, h, rfl, ?_, ?_, ?_, rfl, rfl⟩
  · simp
  · simp
  · simp

/-- C5 as amended, at the lines `hello` and `world` and a buffer of sixteen bytes. -/
theorem edit_file_lines_save_witness :
    ∃ r, edit_file ⟨"f".toList, "zzzzzzzzzzzzzzzz".toList, 0⟩
        (["hello\n".toList, "world\n".toList] ++ "SAVE\n".toList :: []) = some r ∧
      r.exit = EditExit.saved ∧
      r.file.size = ["hello\n".toList, "world\n".toList].flatten.length ∧
      r.file.data =
        ["hello\n".toList, "world\n".toList].flatten ++ Char.ofNat 0 ::
          (File.mk "f".toList "zzzzzzzzzzzzzzzz".toList 0).data.drop
            (["hello\n".toList, "world\n".toList].flatten.length + 1) ∧
      r.file.data.take r.file.size = ["hello\n".toList, "world\n".toList].flatten ∧
      r.file.name = (File.mk "f".toList "zzzzzzzzzzzzzzzz".toList 0).name ∧ r.stdin = [] :=
  edit_file_lines_save ⟨"f".toList, "zzzzzzzzzzzzzzzz".toList, 0⟩
    ["hello\n".toList, "world\n".toList] [] (by decide) (by decide) (by decide)

theorem limit_line_length : limit_line.length = MAX_FILE_SIZE - 1 := by
  simp only [limit_line, List.length_append, List.length_replicate]
  decide

/-- C5 as stated fails at the boundary: one line of `MAX_FILE_SIZE - 1 = 32767`
characters is below the maximum and is appended to a buffer of `MAX_FILE_SIZE` bytes,
but then the loop stops with the size limit before `SAVE` is read, and `size` stays 0. -/
theorem edit_save_at_size_limit :
    (∀ l ∈ [limit_line], l ≠ "SAVE\n".toList ∧ l ≠ "CANCEL\n".toList) ∧
    [limit_line].flatten.length < MAX_FILE_SIZE ∧
    [limit_line].flatten.length < limit_file.data.length ∧
    (edit_file limit_file ([limit_line] ++ "SAVE\n".toList :: [])).map
        (fun r => (r.exit, r.stdin, r.file.size)) =
      some (EditExit.sizeLimit, ["SAVE\n".toList], 0) ∧
    0 ≠ [limit_line].flatten.length := by
  have hlen := limit_line_length
  have hs : limit_line ≠ "SAVE\n".toList := by
    intro h
    have h1 := congrArg List.length h
    rw [hlen] at h1
    revert h1
    decide
  have hc : limit_line ≠ "CANCEL\n".toList := by
    intro h
    have h1 := congrArg List.length h
    rw [hlen] at h1
    revert h1
    decide
  have hcap : limit_file.data.length = MAX_FILE_SIZE := by simp [limit_file]
  refine ⟨?_, ?_, ?_, ?_, ?_⟩
  · intro l hl
    rw [List.mem_singleton] at hl
    subst hl
    exact ⟨hs, hc⟩
  · simp only [List.flatten_cons, List.flatten_nil, List.append_nil, hlen]
    decide
  · simp only [List.flatten_cons, List.flatten_nil, List.append_nil, hlen, hcap]
    decide
  · have h1 : ¬ (0 ≥ MAX_FILE_SIZE - 1) := by decide
    have h2 : 0 + limit_line.length < MAX_FILE_SIZE := by rw [hlen]; decide
    have h3 : 0 + limit_line.length ≤ limit_file.data.length := by
      rw [hlen, hcap]; decide
    have h4 : 0 + limit_line.length ≥ MAX_FILE_SIZE - 1 := by rw [hlen]; decide
    unfold edit_file
    rw [List.singleton_append, edit_loop, if_neg h1, if_neg hs, if_neg hc, if_pos h2,
      memcpy_at_eq _ _ _ h3]
    simp only []
    rw [edit_loop, if_pos h4]
    rfl
  · simp only [List.flatten_cons, List.flatten_nil, List.append_nil, hlen]
    decide

/-! ## Creating directories up to the limit -/

theorem collect_append {β : Type} (body : Nat → Option β) (xs ys : List Nat)
    (bs cs : List β) (h1 : collect body xs = some bs) (h2 : collect body ys = some cs) :
    collect body (xs ++ ys) = some (bs ++ cs) := by
  induction xs generalizing bs with
  | nil =>
    simp only [collect, Option.some.injEq] at h1
    subst h1
    simpa using h2
  | cons x xs ih =>
    simp only [collect] at h1
    cases hx : body x with
    | none => simp [hx] at h1
    | some b =>
      cases hxs : collect body xs with
      | none => simp [hx, hxs] at h1
      | some bs1 =>
        simp only [hx, hxs, Option.some.injEq] at h1
        subst h1
        simp [collect, hx, ih bs1 hxs]

theorem collect_congr {β : Type} (f g : Nat → Option β) (is : List Nat) (bs : List β)
    (h : collect f is = some bs) (hfg : ∀ i ∈ is, ∀ b, f i = some b → g i = some b) :
    collect g is = some bs := by
  induction is generalizing bs with
  | nil => simpa [collect] using h
  | cons x xs ih =>
    simp only [collect] at h
    cases hx : f x with
    | none => simp [hx] at h
    | some b =>
      cases hxs : collect f xs with
      | none => simp [hx, hxs] at h
      | some bs1 =>
        simp only [hx, hxs, Option.some.injEq] at h
        subst h
        have h1 := hfg x (List.mem_cons_self x xs) b hx
        have h2 := ih bs1 hxs (fun i hi => hfg i (List.mem_cons_of_mem x hi))
        simp [collect, h1, h2]

theorem set_same {α : Type} (l : List α) (n : Nat) (x : α) (h : l[n]? = some x) :
    l.set n x = l := by
  induction l generalizing n with
  | nil => simp
  | cons y ys ih =>
    cases n with
    | zero =>
      simp only [List.getElem?_cons_zero, Option.some.injEq] at h
      simp [h]
    | succ m =>
      simp only [List.getElem?_cons_succ] at h
      simp [List.set, ih m h]

/-- The heap after `mkdir name` in the directory at `c`, whose object was `d`. -/
theorem handle_command_mkdir (fs : FileSystem) (c : Nat) (d : Directory) (name : CStr)
    (stdin : List CStr) (hc : fs.current_dir = some c) (hd : fs.dirs[c]? = some d)
    (hn : name.length < MAX_NAME_LENGTH) :
    ∃ out, handle_command fs (mkdir_words name) stdin =
      some ⟨⟨(fs.dirs ++ [new_directory (some c) name]).set c
                (if d.subdir_count < MAX_FILES then d.with_subdir (some fs.dirs.length)
                 else d), fs.files, fs.current_dir⟩, out, stdin, false⟩ := by
  have hlt : c < fs.dirs.length := lt_length_of_getElem? hd
  have hlt1 : c < fs.dirs.length + 1 := by omega
  have hd1 : (fs.dirs ++ [new_directory (some c) name])[c]? = some d := by
    rw [List.getElem?_append_left hlt]; exact hd
  have hcmd : handle_command fs (mkdir_words name) stdin = do_mkdir fs name stdin := by
    have h0 : 0 < MAX_NAME_LENGTH := by decide
    simp [handle_command, mkdir_words, hn, h0, CMD_SIZE]
  rw [hcmd]
  by_cases hfull : d.subdir_count < MAX_FILES
  · refine ⟨[] ++ ["Directory '".toList ++ name ++ "' created.\n".toList], ?_⟩
    simp [do_mkdir, create_directory, hn, add_directory, hc, deref, hd1, hfull, store, hlt1]
  · refine ⟨["Cannot add more directories. Maximum limit reached.\n".toList] ++
      ["Directory '".toList ++ name ++ "' created.\n".toList], ?_⟩
    simp [do_mkdir, create_directory, hn, add_directory, hc, deref, hd1, hfull]
    exact (set_same _ _ _ hd1).symm

theorem subdir_lines_preserved (dirs dirs1 : List Directory) (d d1 : Directory)
    (is : List Nat) (dl : List CStr)
    (h : collect (subdir_line dirs d) is = some dl)
    (hslots : ∀ i ∈ is, d1.subdirs.read i = d.subdirs.read i)
    (hpres : ∀ (a : Nat) (sd : Directory), dirs[a]? = some sd →
      ∃ sd1 : Directory, dirs1[a]? = some sd1 ∧ sd1.name = sd.name) :
    collect (subdir_line dirs1 d1) is = some dl := by
  refine collect_congr _ _ is dl h ?_
  intro i hi b hb
  unfold subdir_line at hb ⊢
  rw [hslots i hi]
  cases hr : d.subdirs.read i with
  | none => simp [hr] at hb
  | some p =>
    cases p with
    | none => simp [hr, deref] at hb
    | some a =>
      cases ha : dirs[a]? with
      | none => simp [hr, deref, ha] at hb
      | some sd =>
        obtain ⟨sd1, h1, h2⟩ := hpres a sd ha
        simp only [hr, deref, ha, Option.some.injEq] at hb
        simp only [deref, h1, h2, hb]

/-- Names at the old addresses after the assignments of one `mkdir`. -/
theorem mkdir_heap_names (dirs : List Directory) (c : Nat) (d d1 new : Directory)
    (hd : dirs[c]? = some d) (hname : d1.name = d.name) (hpar : d1.parent = d.parent) :
    ∀ (a : Nat) (sd : Directory), dirs[a]? = some sd →
      ∃ sd1 : Directory, ((dirs ++ [new]).set c d1)[a]? = some sd1 ∧ sd1.name = sd.name ∧
        sd1.parent = sd.parent := by
  intro a sd ha
  have hlt : a < dirs.length := lt_length_of_getElem? ha
  by_cases hac : c = a
  · subst hac
    rw [hd] at ha
    cases ha
    refine ⟨d1, ?_, hname, hpar⟩
    rw [List.getElem?_set]
    simp
    omega
  · refine ⟨sd, ?_, rfl, rfl⟩
    rw [List.getElem?_set_ne hac, List.getElem?_append_left hlt]
    exact ha

/-- What `ls` prints for the directory at `c` after one `mkdir name` there. -/
theorem list_directory_after_mkdir (dirs : List Directory) (files : List File) (c : Nat)
    (d : Directory) (name : CStr) (l0 : Output) (hd : dirs[c]? = some d)
    (hls : list_directory dirs files (some c) = some l0) :
    list_directory
        ((dirs ++ [new_directory (some c) name]).set c
          (if d.subdir_count < MAX_FILES then d.with_subdir (some dirs.length) else d))
        files (some c) =
      some (l0 ++ if d.subdir_count < MAX_FILES then [directory_line name] else []) := by
  have hlt : c < dirs.length := lt_length_of_getElem? hd
  have hlt1 : c < (dirs ++ [new_directory (some c) name]).length := by
    simp; omega
  unfold list_directory at hls
  simp only [deref, hd] at hls
  cases hfl : collect (file_line files d) (List.range d.file_count) with
  | none => simp [hfl] at hls
  | some fl =>
    cases hdl : collect (subdir_line dirs d) (List.range d.subdir_count) with
    | none => simp [hfl, hdl] at hls
    | some dl =>
      simp only [hfl, hdl, Option.some.injEq] at hls
      subst hls
      by_cases hfull : d.subdir_count < MAX_FILES
      · simp only [hfull, if_true]
        have hpres := mkdir_heap_names dirs c d (d.with_subdir (some dirs.length))
          (new_directory (some c) name) hd rfl rfl
        have hold := subdir_lines_preserved dirs
          ((dirs ++ [new_directory (some c) name]).set c (d.with_subdir (some dirs.length)))
          d (d.with_subdir (some dirs.length)) (List.range d.subdir_count) dl hdl
          (by
            intro i hi
            have hi1 : i < d.subdir_count := List.mem_range.1 hi
            have hne : d.subdir_count ≠ i := by omega
            simp only [Slots.read, Directory.with_subdir, Slots.write]
            exact List.getElem?_set_ne hne)
          (fun a sd ha => by
            obtain ⟨sd1, h1, h2, _⟩ := hpres a sd ha
            exact ⟨sd1, h1, h2⟩)
        have hnew : collect
            (subdir_line
              ((dirs ++ [new_directory (some c) name]).set c
                (d.with_subdir (some dirs.length)))
              (d.with_subdir (some dirs.length))) [d.subdir_count] =
            some [directory_line name] := by
          have hcl : d.subdir_count < d.subdirs.1.length := by rw [d.subdirs.2]; exact hfull
          have hne : c ≠ dirs.length := by omega
          have hread : (d.with_subdir (some dirs.length)).subdirs.read d.subdir_count =
              some (some dirs.length) := by
            simp only [Slots.read, Directory.with_subdir, Slots.write, List.getElem?_set,
              if_true, hcl]
          have hderef : deref
              ((dirs ++ [new_directory (some c) name]).set c
                (d.with_subdir (some dirs.length))) (some dirs.length) =
              some (new_directory (some c) name) := by
            simp only [deref]
            rw [List.getElem?_set_ne hne]
            simp
          simp only [collect, subdir_line, hread, hderef]
          rfl
        have hall := collect_append _ _ _ _ _ hold hnew
        unfold list_directory
        simp only [deref, List.getElem?_set, if_true, hlt1]
        have hcnt : (d.with_subdir (some dirs.length)).subdir_count = d.subdir_count + 1 := rfl
        have hfc : (d.with_subdir (some dirs.length)).file_count = d.file_count := rfl
        have hfile : file_line files (d.with_subdir (some dirs.length)) = file_line files d := rfl
        rw [hcnt, hfc, hfile, List.range_succ, hall, hfl]
        simp [Directory.with_subdir]
      · simp only [hfull, if_false, List.append_nil]
        have hpres := mkdir_heap_names dirs c d d (new_directory (some c) name) hd rfl rfl
        have hold := subdir_lines_preserved dirs
          ((dirs ++ [new_directory (some c) name]).set c d)
          d d (List.range d.subdir_count) dl hdl (fun _ _ => rfl)
          (fun a sd ha => by
            obtain ⟨sd1, h1, h2, _⟩ := hpres a sd ha
            exact ⟨sd1, h1, h2⟩)
        unfold list_directory
        simp only [deref, List.getElem?_set, if_true, hlt1]
        rw [hold, hfl]

theorem with_subdir_children (d : Directory) (p : Ptr) (h : d.subdir_count < MAX_FILES) :
    (d.with_subdir p).children = d.children ++ [p] := by
  have hlen : d.subdir_count < d.subdirs.1.length := by rw [d.subdirs.2]; exact h
  simp only [Directory.children, Directory.with_subdir, Slots.write]
  exact take_succ_set d.subdirs.1 d.subdir_count p hlen

/-- Successive `mkdir` commands in one directory, from any number of children. -/
theorem run_mkdirs (names : List CStr) :
    ∀ (fs : FileSystem) (c : Nat) (d : Directory) (stdin : List CStr) (out l0 : Output),
      fs.current_dir = some c → fs.dirs[c]? = some d →
      (∀ nm ∈ names, nm.length < MAX_NAME_LENGTH) →
      list_directory fs.dirs fs.files (some c) = some l0 →
      ∃ (fs1 : FileSystem) (d1 : Directory) (out1 : Output),
        run_commands fs stdin out (names.map mkdir_words) = some ⟨fs1, out1, stdin, false⟩ ∧
        fs1.current_dir = some c ∧ fs1.files = fs.files ∧
        fs1.dirs.length = fs.dirs.length + names.length ∧
        fs1.dirs[c]? = some d1 ∧
        d1.name = d.name ∧ d1.parent = d.parent ∧ d1.files = d.files ∧
        d1.file_count = d.file_count ∧
        d1.subdir_count = d.subdir_count + min names.length (MAX_FILES - d.subdir_count) ∧
        d1.children = d.children ++
          ((List.range names.length).map (fun i => some (fs.dirs.length + i))).take
            (MAX_FILES - d.subdir_count) ∧
        (∀ a, a < fs.dirs.length → a ≠ c → fs1.dirs[a]? = fs.dirs[a]?) ∧
        (∀ i, i < names.length →
          fs1.dirs[fs.dirs.length + i]? = (names[i]?).map (new_directory (some c))) ∧
        list_directory fs1.dirs fs1.files (some c) =
          some (l0 ++ (names.take (MAX_FILES - d.subdir_count)).map directory_line) := by
  induction names with
  | nil =>
    intro fs c d stdin out l0 hc hd _ hls
    refine ⟨fs, d, out, rfl, hc, rfl, rfl, hd, rfl, rfl, rfl, rfl, ?_, ?_, ?_, ?_, ?_⟩
    · simp
    · simp
    · intro a _ _; rfl
    · intro i hi; simp at hi
    · simpa using hls
  | cons nm rest ih =>
    intro fs c d stdin out l0 hc hd hn hls
    have hlt : c < fs.dirs.length := lt_length_of_getElem? hd
    obtain ⟨o1, hstep⟩ := handle_command_mkdir fs c d nm stdin hc hd
      (hn nm (List.mem_cons_self nm rest))
    have hls1 := list_directory_after_mkdir fs.dirs fs.files c d nm l0 hd hls
    have hnames := mkdir_heap_names fs.dirs c d
      (if d.subdir_count < MAX_FILES then d.with_subdir (some fs.dirs.length) else d)
      (new_directory (some c) nm) hd (by split <;> rfl) (by split <;> rfl)
    have hcur1 : ((fs.dirs ++ [new_directory (some c) nm]).set c
        (if d.subdir_count < MAX_FILES then d.with_subdir (some fs.dirs.length) else d))[c]? =
        some (if d.subdir_count < MAX_FILES then d.with_subdir (some fs.dirs.length)
          else d) := by
      rw [List.getElem?_set]
      simp
      omega
    obtain ⟨fs1, d1, out1, hrun, h1, h2, h3, h4, h5, h6, h7, h8, h9, h10, h11, h12, h13⟩ :=
      ih ⟨(fs.dirs ++ [new_directory (some c) nm]).set c
            (if d.subdir_count < MAX_FILES then d.with_subdir (some fs.dirs.length) else d),
          fs.files, fs.current_dir⟩ c
        (if d.subdir_count < MAX_FILES then d.with_subdir (some fs.dirs.length) else d)
        stdin (out ++ o1)
        (l0 ++ if d.subdir_count < MAX_FILES then [directory_line nm] else [])
        hc hcur1 (fun x hx => hn x (List.mem_cons_of_mem nm hx)) hls1
    have hlen1 : ((fs.dirs ++ [new_directory (some c) nm]).set c
        (if d.subdir_count < MAX_FILES then d.with_subdir (some fs.dirs.length) else d)).length =
        fs.dirs.length + 1 := by simp
    simp only [hlen1] at h3 h10 h11 h12
    refine ⟨fs1, d1, out1, ?_, h1, h2, ?_, h4, ?_, ?_, ?_, ?_, ?_, ?_, ?_, ?_, ?_⟩
    · simp only [List.map_cons, run_commands, hstep]
      exact hrun
    · simp only [List.length_cons]; omega
    · rw [h5]; split <;> rfl
    · rw [h6]; split <;> rfl
    · rw [h7]; split <;> rfl
    · rw [h8]; split <;> rfl
    · rw [h9]
      simp only [List.length_cons]
      by_cases hfull : d.subdir_count < MAX_FILES
      · simp only [hfull, if_true]
        have : (d.with_subdir (some fs.dirs.length)).subdir_count = d.subdir_count + 1 := rfl
        rw [this]; omega
      · simp only [hfull, if_false]; omega
    · rw [h10]
      by_cases hfull : d.subdir_count < MAX_FILES
      · simp only [hfull, if_true]
        rw [with_subdir_children d _ hfull]
        have hk : MAX_FILES - d.subdir_count = (MAX_FILES - (d.subdir_count + 1)) + 1 := by
          omega
        have hcnt : (d.with_subdir (some fs.dirs.length)).subdir_count =
            d.subdir_count + 1 := rfl
        rw [hcnt, hk, List.length_cons, List.range_succ_eq_map, List.map_cons,
          List.take_succ_cons, List.map_map, List.append_assoc]
        simp only [List.singleton_append, Nat.add_zero]
        congr 3
        apply List.map_congr_left
        intro i _
        simp only [Function.comp, Nat.succ_eq_add_one]
        congr 1
        omega
      · simp only [hfull, if_false]
        have hk : MAX_FILES - d.subdir_count = 0 := by omega
        simp [hk]
    · intro a ha hac
      rw [h11 a (by omega) hac, List.getElem?_set_ne (Ne.symm hac),
        List.getElem?_append_left ha]
    · intro i hi
      cases i with
      | zero =>
        have hne : fs.dirs.length ≠ c := by omega
        rw [Nat.add_zero, h11 fs.dirs.length (by omega) hne,
          List.getElem?_set_ne (Ne.symm hne)]
        simp
      | succ j =>
        have hj : j < rest.length := by simpa using hi
        have := h12 j hj
        rw [show fs.dirs.length + (j + 1) = fs.dirs.length + 1 + j from by omega, this]
        simp
    · rw [h13]
      by_cases hfull : d.subdir_count < MAX_FILES
      · simp only [hfull, if_true]
        have hk : MAX_FILES - d.subdir_count = (MAX_FILES - (d.subdir_count + 1)) + 1 := by
          omega
        have hcnt : (d.with_subdir (some fs.dirs.length)).subdir_count =
            d.subdir_count + 1 := rfl
        rw [hcnt, hk, List.take_succ_cons, List.map_cons, List.append_assoc]
        rfl
      · simp only [hfull, if_false]
        have hk : MAX_FILES - d.subdir_count = 0 := by omega
        simp [hk]

/-- C1. In a directory without children, `mkdir` commands with names that fit the name
buffer all run; afterwards the child collection is the first `min n MAX_FILES` created
directories in creation order, each created object carries its name and the parent
link, no later directory is a child, and `ls` prints what it printed before followed by
one line for each of the first `MAX_FILES` names. -/
theorem mkdir_fanout_limit (fs : FileSystem) (c : Nat) (d : Directory)
    (names : List CStr) (stdin : List CStr) (l0 : Output)
    (hc : fs.current_dir = some c) (hd : fs.dirs[c]? = some d)
    (h0 : d.subdir_count = 0)
    (hn : ∀ nm ∈ names, nm.length < MAX_NAME_LENGTH)
    (hls : list_directory fs.dirs fs.files fs.current_dir = some l0) :
    ∃ (fs1 : FileSystem) (d1 : Directory) (out1 : Output),
      run_commands fs stdin [] (names.map mkdir_words) = some ⟨fs1, out1, stdin, false⟩ ∧
      fs1.current_dir = some c ∧ fs1.dirs[c]? = some d1 ∧
      d1.subdir_count = min names.length MAX_FILES ∧
      d1.children =
        (List.range (min names.length MAX_FILES)).map (fun i => some (fs.dirs.length + i)) ∧
      (∀ i, i < names.length →
        fs1.dirs[fs.dirs.length + i]? = (names[i]?).map (new_directory (some c))) ∧
      (∀ i, MAX_FILES ≤ i → some (fs.dirs.length + i) ∉ d1.children) ∧
      list_directory fs1.dirs fs1.files fs1.current_dir =
        some (l0 ++ (names.take MAX_FILES).map directory_line) := by
  rw [hc] at hls
  obtain ⟨fs1, d1, out1, hrun, h1, _, _, h4, _, _, _, _, h9, h10, _, h12, h13⟩ :=
    run_mkdirs names fs c d stdin [] l0 hc hd hn hls
  have hch : d.children = [] := by simp [Directory.children, h0]
  have hchildren : d1.children =
      (List.range (min names.length MAX_FILES)).map (fun i => some (fs.dirs.length + i)) := by
    rw [h10, hch, h0, List.nil_append, Nat.sub_zero, ← List.map_take, List.take_range,
      Nat.min_comm]
  refine ⟨fs1, d1, out1, hrun, h1, h4, ?_, hchildren, h12, ?_, ?_⟩
  · rw [h9, h0]; simp
  · intro i hi hmem
    rw [hchildren, List.mem_map] at hmem
    obtain ⟨j, hj, hji⟩ := hmem
    rw [List.mem_range] at hj
    have : fs.dirs.length + j = fs.dirs.length + i := by simpa using hji
    omega
  · rw [h1, h13, h0, Nat.sub_zero]

/-- C1, at the initial state and sixty-five directories called `d`. -/
theorem mkdir_fanout_limit_witness :
    ∃ (fs1 : FileSystem) (d1 : Directory) (out1 : Output),
      run_commands init_filesystem [] [] ((List.replicate 65 "d".toList).map mkdir_words) =
        some ⟨fs1, out1, [], false⟩ ∧
      fs1.current_dir = some 0 ∧ fs1.dirs[0]? = some d1 ∧
      d1.subdir_count = min (List.replicate 65 "d".toList).length MAX_FILES ∧
      d1.children =
        (List.range (min (List.replicate 65 "d".toList).length MAX_FILES)).map
          (fun i => some (init_filesystem.dirs.length + i)) ∧
      (∀ i, i < (List.replicate 65 "d".toList).length →
        fs1.dirs[init_filesystem.dirs.length + i]? =
          ((List.replicate 65 "d".toList)[i]?).map (new_directory (some 0))) ∧
      (∀ i, MAX_FILES ≤ i → some (init_filesystem.dirs.length + i) ∉ d1.children) ∧
      list_directory fs1.dirs fs1.files fs1.current_dir =
        some (["Directory: root\n".toList] ++
          ((List.replicate 65 "d".toList).take MAX_FILES).map directory_line) :=
  mkdir_fanout_limit init_filesystem 0 (new_directory none "root".toList)
    (List.replicate 65 "d".toList) [] ["Directory: root\n".toList] rfl rfl rfl
    (fun nm h => by rw [List.eq_of_mem_replicate h]; decide) (by decide)

/-! ## The path of the current directory -/

theorem get_current_path_preserved (dirs dirs1 : List Directory)
    (hpres : ∀ (a : Nat) (sd : Directory), dirs[a]? = some sd →
      ∃ sd1 : Directory, dirs1[a]? = some sd1 ∧ sd1.name = sd.name ∧
        sd1.parent = sd.parent) :
    ∀ (fuel : Nat) (p : Ptr) (buf s : CStr),
      get_current_path dirs fuel p buf = some s →
      get_current_path dirs1 fuel p buf = some s := by
  intro fuel
  induction fuel with
  | zero => intro p buf s h; simp [get_current_path] at h
  | succ n ih =>
    intro p buf s h
    cases p with
    | none => simp [get_current_path, deref] at h
    | some a =>
      cases ha : dirs[a]? with
      | none => simp [get_current_path, deref, ha] at h
      | some sd =>
        obtain ⟨sd1, h1, h2, h3⟩ := hpres a sd ha
        simp only [get_current_path, deref, ha] at h
        simp only [get_current_path, deref, h1, h2, h3]
        cases hp : sd.parent with
        | none =>
          simp only [hp] at h ⊢
          exact h
        | some b =>
          simp only [hp] at h ⊢
          cases hrec : get_current_path dirs n (some b) buf with
          | none => simp [hrec] at h
          | some s1 =>
            rw [ih (some b) buf s1 hrec]
            simp only [hrec] at h
            exact h

/-- The step `cd name` right after `mkdir name` in a directory that had no children. -/
theorem handle_command_cd_new (dirs : List Directory) (files : List File) (c : Nat)
    (d : Directory) (name : CStr) (stdin : List CStr) (hd : dirs[c]? = some d)
    (h0 : d.subdir_count = 0) (hn : name.length < MAX_NAME_LENGTH)
    (hne : name ≠ "..".toList) :
    handle_command
        ⟨(dirs ++ [new_directory (some c) name]).set c (d.with_subdir (some dirs.length)),
          files, some c⟩ (cd_words name) stdin =
      some ⟨⟨(dirs ++ [new_directory (some c) name]).set c
              (d.with_subdir (some dirs.length)), files, some dirs.length⟩,
            [], stdin, false⟩ := by
  have hlt : c < dirs.length := lt_length_of_getElem? hd
  have hlt1 : c < (dirs ++ [new_directory (some c) name]).length := by
    simp; omega
  have hne1 : c ≠ dirs.length := by omega
  have hcmd : handle_command
      ⟨(dirs ++ [new_directory (some c) name]).set c (d.with_subdir (some dirs.length)),
        files, some c⟩ (cd_words name) stdin =
      match change_directory
        ⟨(dirs ++ [new_directory (some c) name]).set c (d.with_subdir (some dirs.length)),
          files, some c⟩ name with
      | none => none
      | some (fs1, out) => some ⟨fs1, out, stdin, false⟩ := by
    have h00 : 0 < MAX_NAME_LENGTH := by decide
    simp [handle_command, cd_words, hn, h00, CMD_SIZE]
  have hcl : 0 < d.subdirs.1.length := by rw [d.subdirs.2]; decide
  have hread : (d.with_subdir (some dirs.length)).subdirs.read 0 =
      some (some dirs.length) := by
    simp only [Slots.read, Directory.with_subdir, Slots.write, h0, List.getElem?_set,
      if_true, hcl]
  have hderef : deref
      ((dirs ++ [new_directory (some c) name]).set c (d.with_subdir (some dirs.length)))
      (some dirs.length) = some (new_directory (some c) name) := by
    simp only [deref]
    rw [List.getElem?_set_ne hne1]
    simp
  have hcnt : (d.with_subdir (some dirs.length)).subdir_count = 1 := by
    simp [Directory.with_subdir, h0]
  rw [hcmd]
  unfold change_directory
  simp only [deref, List.getElem?_set, if_true, hlt1]
  rw [if_neg hne, hcnt]
  have hscan : change_directory_scan
      ((dirs ++ [new_directory (some c) name]).set c (d.with_subdir (some dirs.length)))
      (d.with_subdir (some dirs.length)) name (List.range 1) =
      some (some (some dirs.length)) := by
    have hr : List.range 1 = [0] := rfl
    rw [hr]
    simp only [change_directory_scan, hread, hderef]
    simp [new_directory]
  rw [hscan]

theorem intercalate_cons_eq (sep x : CStr) (xs : List CStr) :
    List.intercalate sep (x :: xs) = x ++ (xs.map (fun n => sep ++ n)).flatten := by
  induction xs generalizing x with
  | nil => simp [List.intercalate]
  | cons y ys ih =>
    have h := ih y
    simp only [List.intercalate, List.intersperse, List.flatten_cons, List.map_cons] at h ⊢
    rw [h]
    simp

/-- The chain built by `nest_commands` below a directory without children whose path
is `path`: the commands all run and the path of the cursor is `path` followed by the
names, each after a separator. -/
theorem run_nest_commands (names : List CStr) :
    ∀ (fs : FileSystem) (c : Nat) (d : Directory) (stdin : List CStr) (out : Output)
      (path : CStr) (depth : Nat),
      fs.current_dir = some c → fs.dirs[c]? = some d → d.subdir_count = 0 →
      (∀ nm ∈ names, nm.length < MAX_NAME_LENGTH ∧ nm ≠ "..".toList) →
      (∀ fuel, depth ≤ fuel → get_current_path fs.dirs fuel (some c) [] = some path) →
      ∃ (fs1 : FileSystem) (out1 : Output),
        run_commands fs stdin out (nest_commands names) = some ⟨fs1, out1, stdin, false⟩ ∧
        fs1.dirs.length = fs.dirs.length + names.length ∧
        ∀ fuel, depth + names.length ≤ fuel →
          get_current_path fs1.dirs fuel fs1.current_dir [] =
            some (path ++ (names.map (fun n => "/".toList ++ n)).flatten) := by
  induction names with
  | nil =>
    intro fs c d stdin out path depth hc _ _ _ hpath
    refine ⟨fs, out, rfl, rfl, ?_⟩
    intro fuel hfuel
    rw [hc]
    simpa using hpath fuel (by simpa using hfuel)
  | cons nm rest ih =>
    intro fs c d stdin out path depth hc hd h0 hn hpath
    obtain ⟨hnlen, hnne⟩ := hn nm (List.mem_cons_self nm rest)
    have hlt : c < fs.dirs.length := lt_length_of_getElem? hd
    have hfull : d.subdir_count < MAX_FILES := by rw [h0]; decide
    obtain ⟨o1, hmk⟩ := handle_command_mkdir fs c d nm stdin hc hd hnlen
    simp only [hfull, if_true, hc] at hmk
    have hcd := handle_command_cd_new fs.dirs fs.files c d nm stdin hd h0 hnlen hnne
    have hnames := mkdir_heap_names fs.dirs c d (d.with_subdir (some fs.dirs.length))
      (new_directory (some c) nm) hd rfl rfl
    have hnew : ((fs.dirs ++ [new_directory (some c) nm]).set c
        (d.with_subdir (some fs.dirs.length)))[fs.dirs.length]? =
        some (new_directory (some c) nm) := by
      have hne1 : c ≠ fs.dirs.length := by omega
      rw [List.getElem?_set_ne hne1]
      simp
    have hpath1 : ∀ fuel, depth + 1 ≤ fuel →
        get_current_path
          ((fs.dirs ++ [new_directory (some c) nm]).set c
            (d.with_subdir (some fs.dirs.length)))
          fuel (some fs.dirs.length) [] = some ((path ++ "/".toList) ++ nm) := by
      intro fuel hfuel
      obtain ⟨f, rfl⟩ : ∃ f, fuel = f + 1 := ⟨fuel - 1, by omega⟩
      have hp := get_current_path_preserved fs.dirs _ hnames f (some c) [] path
        (hpath f (by omega))
      have hpar : (new_directory (some c) nm).parent = some c := rfl
      have hnm : (new_directory (some c) nm).name = nm := rfl
      simp only [get_current_path, deref, hnew, hpar, hnm, hp]
    obtain ⟨fs1, out1, hrun, hlen, hres⟩ := ih
      ⟨(fs.dirs ++ [new_directory (some c) nm]).set c (d.with_subdir (some fs.dirs.length)),
        fs.files, some fs.dirs.length⟩
      fs.dirs.length (new_directory (some c) nm) stdin ((out ++ o1) ++ [])
      ((path ++ "/".toList) ++ nm) (depth + 1) rfl hnew rfl
      (fun x hx => hn x (List.mem_cons_of_mem nm hx)) hpath1
    refine ⟨fs1, out1, ?_, ?_, ?_⟩
    · simp only [nest_commands, run_commands, hmk, hcd]
      exact hrun
    · rw [hlen]
      simp
      omega
    · intro fuel hfuel
      rw [hres fuel (by simp only [List.length_cons] at hfuel; omega)]
      simp

/-- Nesting by commands: for names that fit the name buffer and differ from `..`, the
commands `mkdir n1`, `cd n1`, ..., `mkdir nk`, `cd nk` from the initial state all run,
and `get_current_path` of the cursor on an empty buffer gives `root`, `n1`, ..., `nk`
joined by single `/`: the recursion has depth `k + 1`. -/
theorem get_current_path_nested (names : List CStr) (stdin : List CStr)
    (hn : ∀ nm ∈ names, nm.length < MAX_NAME_LENGTH ∧ nm ≠ "..".toList) :
    ∃ (fs1 : FileSystem) (out1 : Output),
      run_commands init_filesystem stdin [] (nest_commands names) =
        some ⟨fs1, out1, stdin, false⟩ ∧
      fs1.dirs.length = names.length + 1 ∧
      ∀ fuel, names.length < fuel →
        get_current_path fs1.dirs fuel fs1.current_dir [] =
          some (List.intercalate "/".toList ("root".toList :: names)) := by
  obtain ⟨fs1, out1, hrun, hlen, hres⟩ := run_nest_commands names init_filesystem 0
    (new_directory none "root".toList) stdin [] "root".toList 1 rfl rfl rfl hn
    (by
      intro fuel hfuel
      obtain ⟨f, rfl⟩ : ∃ f, fuel = f + 1 := ⟨fuel - 1, by omega⟩
      rfl)
  refine ⟨fs1, out1, hrun, ?_, ?_⟩
  · rw [hlen]
    simp [init_filesystem]
    omega
  · intro fuel hfuel
    rw [hres fuel (by omega), intercalate_cons_eq]

/-- Nesting by commands, at the names `a` and `b`: the path is `root/a/b`. -/
theorem get_current_path_nested_a_b :
    ∃ (fs1 : FileSystem) (out1 : Output),
      run_commands init_filesystem [] [] (nest_commands ["a".toList, "b".toList]) =
        some ⟨fs1, out1, [], false⟩ ∧
      fs1.dirs.length = 3 ∧
      ∀ fuel, 2 < fuel →
        get_current_path fs1.dirs fuel fs1.current_dir [] = some "root/a/b".toList :=
  get_current_path_nested ["a".toList, "b".toList] [] (by decide)

theorem get_current_path_up (dirs : List Directory) (up : List CStr) :
    ∀ (p : Ptr) (fuel : Nat), chain_to_root dirs p up = true → up.length < fuel →
      get_current_path dirs fuel p [] =
        some ("root".toList ++ (up.reverse.map (fun n => "/".toList ++ n)).flatten) := by
  induction up with
  | nil =>
    intro p fuel hch hfuel
    obtain ⟨f, rfl⟩ : ∃ f, fuel = f + 1 := ⟨fuel - 1, by simp at hfuel; omega⟩
    cases hd : deref dirs p with
    | none => simp [chain_to_root, hd] at hch
    | some d =>
      simp only [chain_to_root, hd, Bool.and_eq_true, decide_eq_true_eq,
        Option.isNone_iff_eq_none] at hch
      simp [get_current_path, hd, hch.1, hch.2]
  | cons n ns ih =>
    intro p fuel hch hfuel
    obtain ⟨f, rfl⟩ : ∃ f, fuel = f + 1 := ⟨fuel - 1, by simp at hfuel; omega⟩
    cases hd : deref dirs p with
    | none => simp [chain_to_root, hd] at hch
    | some d =>
      simp only [chain_to_root, hd, Bool.and_eq_true, decide_eq_true_eq] at hch
      obtain ⟨⟨hname, hsome⟩, hrest⟩ := hch
      cases hp : d.parent with
      | none => simp [hp] at hsome
      | some a =>
        rw [hp] at hrest
        have hrec := ih (some a) f hrest (by simp only [List.length_cons] at hfuel; omega)
        simp only [get_current_path, hd, hp, hrec, hname]
        simp

/-- C10. When the parent links from a directory lead through directories called
`nk`, ..., `n1` to the root of `init_filesystem`, `get_current_path` on an empty buffer
returns, at recursion depth `k + 1`, the names `root`, `n1`, ..., `nk` joined by single
`/` separators. -/
theorem get_current_path_chain (dirs : List Directory) (p : Ptr) (names : List CStr)
    (fuel : Nat) (hchain : chain_to_root dirs p names.reverse = true)
    (hfuel : names.length < fuel) :
    get_current_path dirs fuel p [] =
      some (List.intercalate "/".toList ("root".toList :: names)) := by
  have h := get_current_path_up dirs names.reverse p fuel hchain (by simpa using hfuel)
  rw [h, List.reverse_reverse, intercalate_cons_eq]

/-- C10, at the tree that `mkdir a`, `cd a`, `mkdir b`, `cd b` build, and at the root. -/
theorem get_current_path_chain_witness :
    (run_commands init_filesystem [] [] (nest_commands ["a".toList, "b".toList])).map
        (fun s => s.fs) = some tree_a_b ∧
    get_current_path tree_a_b.dirs 3 tree_a_b.current_dir [] = some "root/a/b".toList ∧
    get_current_path init_filesystem.dirs 1 init_filesystem.current_dir [] =
      some "root".toList :=
  ⟨by decide,
   get_current_path_chain tree_a_b.dirs tree_a_b.current_dir ["a".toList, "b".toList] 3
     (by decide) (by decide),
   get_current_path_chain init_filesystem.dirs init_filesystem.current_dir [] 1
     (by decide) (by decide)⟩

/-! ## The first child of a name -/

theorem change_directory_scan_skip (dirs : List Directory) (d : Directory) (path : CStr)
    (pre rest : List Nat)
    (h : ∀ i ∈ pre, ∃ p sd, d.subdirs.read i = some p ∧ deref dirs p = some sd ∧
      sd.name ≠ path) :
    change_directory_scan dirs d path (pre ++ rest) =
      change_directory_scan dirs d path rest := by
  induction pre with
  | nil => rfl
  | cons i is ih =>
    obtain ⟨p, sd, h1, h2, h3⟩ := h i (List.mem_cons_self i is)
    have ih1 := ih (fun j hj => h j (List.mem_cons_of_mem i hj))
    simp [change_directory_scan, h1, h2, h3, ih1]

theorem range_split (n k : Nat) (h : k < n) :
    List.range n = List.range k ++ k :: (List.range (n - k - 1)).map (fun i => k + 1 + i) := by
  have h1 : n = k + ((n - k - 1) + 1) := by omega
  conv_lhs => rw [h1]
  rw [List.range_add, List.range_succ_eq_map, List.map_cons, List.map_map]
  simp only [Nat.add_zero, List.cons.injEq, List.append_cancel_left_eq, true_and]
  apply List.map_congr_left
  intro i _
  simp only [Function.comp, Nat.succ_eq_add_one]
  omega

/-- The scan of `change_directory` stops at the first index whose child has the name. -/
theorem change_directory_scan_first (dirs : List Directory) (d : Directory) (path : CStr)
    (k : Nat) (p : Ptr) (sd : Directory) (hk : k < d.subdir_count)
    (hp : d.subdirs.read k = some p) (hsd : deref dirs p = some sd)
    (hname : sd.name = path)
    (hbefore : ∀ i, i < k →
      ∃ q sq, d.subdirs.read i = some q ∧ deref dirs q = some sq ∧ sq.name ≠ path) :
    change_directory_scan dirs d path (List.range d.subdir_count) = some (some p) := by
  rw [range_split d.subdir_count k hk,
    change_directory_scan_skip dirs d path _ _ (fun i hi => hbefore i (List.mem_range.1 hi))]
  simp [change_directory_scan, hp, hsd, hname]

/-- C11. When `path` is not `..`, the child in slot `k` of the current directory is
called `path` and the children in the slots before `k` have other names,
`change_directory` prints nothing and moves the cursor to the child in slot `k`: the
first match wins, whatever the later children are called; the objects are unchanged. -/
theorem change_directory_first_match (fs : FileSystem) (d : Directory) (path : CStr)
    (k : Nat) (p : Ptr) (sd : Directory)
    (hd : deref fs.dirs fs.current_dir = some d) (hne : path ≠ "..".toList)
    (hk : k < d.subdir_count) (hp : d.subdirs.read k = some p)
    (hsd : deref fs.dirs p = some sd) (hname : sd.name = path)
    (hbefore : ∀ i, i < k →
      ∃ q sq, d.subdirs.read i = some q ∧ deref fs.dirs q = some sq ∧ sq.name ≠ path) :
    ∃ fs1, change_directory fs path = some (fs1, []) ∧
      fs1.current_dir = p ∧ fs1.dirs = fs.dirs ∧ fs1.files = fs.files := by
  refine ⟨⟨fs.dirs, fs.files, p⟩, ?_, rfl, rfl, rfl⟩
  have hscan := change_directory_scan_first fs.dirs d path k p sd hk hp hsd hname hbefore
  unfold change_directory
  simp only [hd]
  rw [if_neg hne, hscan]

/-- C11, at the root with the children `b`, `a`, `a`: `cd a` enters the child in slot 1,
at address 2, not the one in slot 2. -/
theorem change_directory_first_match_witness :
    (run_commands init_filesystem [] []
        [mkdir_words "b".toList, mkdir_words "a".toList, mkdir_words "a".toList]).map
      (fun s => s.fs) = some tree_b_a_a ∧
    ∃ fs1, change_directory tree_b_a_a "a".toList = some (fs1, []) ∧
      fs1.current_dir = some 2 ∧ fs1.dirs = tree_b_a_a.dirs ∧
      fs1.files = tree_b_a_a.files :=
  ⟨by decide, change_directory_first_match tree_b_a_a
    ((((new_directory none "root".toList).with_subdir (some 1)).with_subdir
      (some 2)).with_subdir (some 3))
    "a".toList 1 (some 2) (new_directory (some 0) "a".toList) rfl (by decide) (by decide)
    rfl rfl rfl
    (fun i hi => by
      have hi0 : i = 0 := by omega
      subst hi0
      exact ⟨some 1, new_directory (some 0) "b".toList, rfl, rfl, by decide⟩)⟩

/-! ## Creating objects -/

/-- The function `create_directory` on a name that fits `name[MAX_NAME_LENGTH]` with
its terminator: the new object is appended to the heap, it carries the name as given,
the parent link, and empty child and entry collections. -/
theorem create_directory_fits (dirs : List Directory) (parent : Ptr) (name : CStr)
    (hn : name.length < MAX_NAME_LENGTH) :
    ∃ nd, create_directory dirs parent name = some (dirs ++ [nd], some dirs.length) ∧
      deref (dirs ++ [nd]) (some dirs.length) = some nd ∧
      nd.name = name ∧ nd.name = name.take MAX_NAME_LENGTH ∧ nd.parent = parent ∧
      nd.children = [] ∧ nd.entries = [] ∧ nd.subdir_count = 0 ∧ nd.file_count = 0 := by
  refine ⟨new_directory parent name, ?_, ?_, rfl, ?_, rfl, rfl, rfl, rfl, rfl⟩
  · simp [create_directory, hn]
  · simp [deref]
  · have h : MAX_NAME_LENGTH ≥ name.length := by omega
    simp only [new_directory]
    exact (List.take_of_length_le h).symm

/-- C13, the code at a name of twelve characters, the length of `AUTOEXEC.BAT`:
`strcpy` needs thirteen bytes in `name[MAX_NAME_LENGTH]`, so `create_directory` has no
defined result, nor has the command `mkdir` with that name; a name of eleven characters
is stored as it is. -/
theorem create_directory_name_overflow :
    "AUTOEXEC.BAT".toList.length = MAX_NAME_LENGTH ∧
    create_directory init_filesystem.dirs (some 0) "AUTOEXEC.BAT".toList = none ∧
    create_directory init_filesystem.dirs (some 0) "AUTOEXEC.BATCH".toList = none ∧
    handle_command init_filesystem (mkdir_words "AUTOEXEC.BAT".toList) [] = none ∧
    (create_directory init_filesystem.dirs (some 0) "AUTOEXEC.BA".toList).map
      (fun r => r.1.map (fun d => d.name)) =
      some ["root".toList, "AUTOEXEC.BA".toList] := by
  decide

/-- C14. For a name that fits the name buffer, `create_file` on a source of at least
`size` bytes appends to the heap a file whose buffer holds the first `size` bytes of
the source and whose `size` is `size`. So `touch name data`, for words that fit `arg1`
and `arg2`, in a directory with fewer than `MAX_FILES` entries creates the file whose
buffer holds the bytes of `data` and one NUL and whose size is `data.length + 1`, and
appends it at the end of the entry collection of the current directory. -/
theorem create_file_touch (fs : FileSystem) (c : Nat) (d : Directory) (name data : CStr)
    (stdin : List CStr) (hc : fs.current_dir = some c) (hd : fs.dirs[c]? = some d)
    (hfc : d.file_count < MAX_FILES) (hn : name.length < MAX_NAME_LENGTH)
    (hdata : data.length < MAX_NAME_LENGTH) :
    (∀ (files : List File) (src : List Char) (size : Nat), size ≤ src.length →
      ∃ f, create_file files name src size = some (files ++ [f], some files.length) ∧
        deref (files ++ [f]) (some files.length) = some f ∧
        f.name = name ∧ f.data = src.take size ∧ f.size = size) ∧
    ∃ (out : Output) (d1 : Directory),
      handle_command fs ["touch".toList, name, data] stdin =
        some ⟨⟨fs.dirs.set c d1,
               fs.files ++ [⟨name, data ++ [Char.ofNat 0], data.length + 1⟩],
               some c⟩, out, stdin, false⟩ ∧
      d1.entries = d.entries ++ [some fs.files.length] ∧
      d1.file_count = d.file_count + 1 ∧
      d1.children = d.children ∧ d1.name = d.name ∧ d1.parent = d.parent := by
  have hlt : c < fs.dirs.length := lt_length_of_getElem? hd
  constructor
  · intro files src size hsize
    refine ⟨⟨name, src.take size, size⟩, ?_, ?_, rfl, rfl, rfl⟩
    · simp [create_file, hn, hsize]
    · simp [deref]
  · refine ⟨[] ++ ["File '".toList ++ name ++ "' created.\n".toList], d.with_file
      (some fs.files.length), ?_, ?_, rfl, rfl, rfl, rfl⟩
    · have h0 : 0 < MAX_NAME_LENGTH := by decide
      have hcmd : handle_command fs ["touch".toList, name, data] stdin =
          do_touch fs name data stdin := by
        simp [handle_command, hn, hdata, CMD_SIZE]
      rw [hcmd]
      simp [do_touch, create_file, hn, add_file, hc, deref, hd, hfc, store, hlt]
    · have hlen : d.file_count < d.files.1.length := by rw [d.files.2]; exact hfc
      simp only [Directory.entries, Directory.with_file, Slots.write]
      exact take_succ_set d.files.1 d.file_count _ hlen

/-- C14, at `touch f abc` in the initial state. -/
theorem create_file_touch_witness :
    (∀ (files : List File) (src : List Char) (size : Nat), size ≤ src.length →
      ∃ f, create_file files "f".toList src size =
          some (files ++ [f], some files.length) ∧
        deref (files ++ [f]) (some files.length) = some f ∧
        f.name = "f".toList ∧ f.data = src.take size ∧ f.size = size) ∧
    ∃ (out : Output) (d1 : Directory),
      handle_command init_filesystem ["touch".toList, "f".toList, "abc".toList] [] =
        some ⟨⟨init_filesystem.dirs.set 0 d1,
               init_filesystem.files ++
                 [⟨"f".toList, "abc".toList ++ [Char.ofNat 0], "abc".toList.length + 1⟩],
               some 0⟩, out, [], false⟩ ∧
      d1.entries = (new_directory none "root".toList).entries ++
        [some init_filesystem.files.length] ∧
      d1.file_count = (new_directory none "root".toList).file_count + 1 ∧
      d1.children = (new_directory none "root".toList).children ∧
      d1.name = (new_directory none "root".toList).name ∧
      d1.parent = (new_directory none "root".toList).parent :=
  create_file_touch init_filesystem 0 (new_directory none "root".toList) "f".toList
    "abc".toList [] rfl rfl (by decide) (by decide) (by decide)

/-! ## Listing a directory -/

theorem collect_range_map {β : Type} (f : Nat → Option β) (g : Nat → β) (is : List Nat)
    (h : ∀ i ∈ is, f i = some (g i)) : collect f is = some (is.map g) := by
  induction is with
  | nil => rfl
  | cons i is ih =>
    have h1 := h i (List.mem_cons_self i is)
    have h2 := ih (fun j hj => h j (List.mem_cons_of_mem i hj))
    simp [collect, h1, h2]

/-- C15. For a directory whose entries and children are objects, with the entry in slot
`i` called `fname i` and the child in slot `i` called `sname i`, `list_directory` prints
the header with the name of the directory, then one `File:` line per entry in the order
of the slots, then one `Directory:` line per child in the order of the slots,
`file_count + subdir_count + 1` lines in all; the command `ls` prints just that and
returns the state as it was. -/
theorem list_directory_lines (dirs : List Directory) (files : List File) (a : Nat)
    (d : Directory) (fname sname : Nat → CStr) (hd : dirs[a]? = some d)
    (hf : ∀ i, i < d.file_count →
      ∃ p f, d.files.read i = some p ∧ deref files p = some f ∧ f.name = fname i)
    (hs : ∀ i, i < d.subdir_count →
      ∃ p sd, d.subdirs.read i = some p ∧ deref dirs p = some sd ∧ sd.name = sname i) :
    ∃ out, list_directory dirs files (some a) = some out ∧
      out = ("Directory: ".toList ++ d.name ++ "\n".toList) ::
        ((List.range d.file_count).map
            (fun i => "  File: ".toList ++ fname i ++ "\n".toList) ++
          (List.range d.subdir_count).map
            (fun i => "  Directory: ".toList ++ sname i ++ "\n".toList)) ∧
      out.length = d.file_count + d.subdir_count + 1 ∧
      ∀ (stdin : List CStr) (cur : Ptr), cur = some a →
        handle_command ⟨dirs, files, cur⟩ ["ls".toList] stdin =
          some ⟨⟨dirs, files, cur⟩, out, stdin, false⟩ := by
  have hfl : collect (file_line files d) (List.range d.file_count) =
      some ((List.range d.file_count).map
        (fun i => "  File: ".toList ++ fname i ++ "\n".toList)) := by
    apply collect_range_map
    intro i hi
    obtain ⟨p, f, h1, h2, h3⟩ := hf i (List.mem_range.1 hi)
    simp only [file_line, h1, h2, h3]
  have hdl : collect (subdir_line dirs d) (List.range d.subdir_count) =
      some ((List.range d.subdir_count).map
        (fun i => "  Directory: ".toList ++ sname i ++ "\n".toList)) := by
    apply collect_range_map
    intro i hi
    obtain ⟨p, sd, h1, h2, h3⟩ := hs i (List.mem_range.1 hi)
    simp only [subdir_line, h1, h2, h3, directory_line]
  have hls : list_directory dirs files (some a) =
      some (("Directory: ".toList ++ d.name ++ "\n".toList) ::
        ((List.range d.file_count).map
            (fun i => "  File: ".toList ++ fname i ++ "\n".toList) ++
          (List.range d.subdir_count).map
            (fun i => "  Directory: ".toList ++ sname i ++ "\n".toList))) := by
    unfold list_directory
    simp only [deref, hd, hfl, hdl]
  refine ⟨_, hls, rfl, ?_, ?_⟩
  · simp
  · intro stdin cur hcur
    subst hcur
    have h0 : 0 < MAX_NAME_LENGTH := by decide
    simp only [handle_command]
    simp [hls, CMD_SIZE, h0]

/-- C15, at the root after `touch f abc` and `mkdir a`. -/
theorem list_directory_lines_witness :
    (run_commands init_filesystem [] []
        [["touch".toList, "f".toList, "abc".toList], mkdir_words "a".toList]).map
      (fun s => s.fs) = some tree_f_a ∧
    ∃ out, list_directory tree_f_a.dirs tree_f_a.files (some 0) = some out ∧
      out = ["Directory: root\n".toList, "  File: f\n".toList, "  Directory: a\n".toList] ∧
      out.length = 3 ∧
      ∀ (stdin : List CStr) (cur : Ptr), cur = some 0 →
        handle_command ⟨tree_f_a.dirs, tree_f_a.files, cur⟩ ["ls".toList] stdin =
          some ⟨⟨tree_f_a.dirs, tree_f_a.files, cur⟩, out, stdin, false⟩ :=
  ⟨by decide,
   list_directory_lines tree_f_a.dirs tree_f_a.files 0
    (((new_directory none "root".toList).with_file (some 0)).with_subdir (some 1))
    (fun _ => "f".toList) (fun _ => "a".toList) rfl
    (fun i hi => by
      have hi0 : i = 0 := by
        have h1 : i < 1 := hi
        omega
      subst hi0
      exact ⟨some 0, ⟨"f".toList, "abc".toList ++ [Char.ofNat 0], 4⟩, rfl, rfl, rfl⟩)
    (fun i hi => by
      have hi0 : i = 0 := by
        have h1 : i < 1 := hi
        omega
      subst hi0
      exact ⟨some 1, new_directory (some 0) "a".toList, rfl, rfl, rfl⟩)⟩

/-! ## Bounds on the size of a file -/

/-- At `MAX_FILE_SIZE - 1` accumulated bytes or more the loop of `edit_file` stops with
the size limit before it reads anything. -/
theorem edit_loop_at_limit (file : File) (t : Nat) (out : Output) (lines : List CStr)
    (ht : MAX_FILE_SIZE - 1 ≤ t) :
    edit_loop file t out lines =
      some ⟨file, lines, out ++ ["File size limit reached.\n".toList],
        EditExit.sizeLimit⟩ := by
  cases lines with
  | nil => rw [edit_loop, if_pos ht]
  | cons l ls => rw [edit_loop, if_pos ht]

/-- What the loop of `edit_file` returns: after `SAVE` the size is the accumulated
length, which is below `MAX_FILE_SIZE - 1`; otherwise the size is the one before. -/
theorem edit_loop_result (lines : List CStr) :
    ∀ (file : File) (t : Nat) (out : Output) (r : EditResult),
      edit_loop file t out lines = some r →
      (r.exit = EditExit.saved →
        r.file.size = edit_total_size t lines ∧ r.file.size < MAX_FILE_SIZE - 1) ∧
      (r.exit ≠ EditExit.saved → r.file.size = file.size) ∧
      r.file.name = file.name ∧ r.file.data.length = file.data.length := by
  induction lines with
  | nil =>
    intro file t out r h
    by_cases ht : t ≥ MAX_FILE_SIZE - 1
    · rw [edit_loop, if_pos ht] at h
      cases h
      exact ⟨fun hs => (by cases hs), fun _ => rfl, rfl, rfl⟩
    · rw [edit_loop, if_neg ht] at h
      cases h
      exact ⟨fun hs => (by cases hs), fun _ => rfl, rfl, rfl⟩
  | cons l ls ih =>
    intro file t out r h
    by_cases ht : t ≥ MAX_FILE_SIZE - 1
    · rw [edit_loop, if_pos ht] at h
      cases h
      exact ⟨fun hs => (by cases hs), fun _ => rfl, rfl, rfl⟩
    · rw [edit_loop, if_neg ht] at h
      rw [edit_total_size, if_neg ht]
      by_cases hs : l = "SAVE\n".toList
      · rw [if_pos hs] at h
        rw [if_pos hs]
        by_cases hcap : t < file.data.length
        · rw [if_pos hcap] at h
          cases h
          refine ⟨fun _ => ⟨rfl, ?_⟩, fun hne => absurd rfl hne, rfl, ?_⟩
          · show t < MAX_FILE_SIZE - 1
            omega
          · simp
        · rw [if_neg hcap] at h
          cases h
      · rw [if_neg hs] at h
        rw [if_neg hs]
        by_cases hc : l = "CANCEL\n".toList
        · rw [if_pos hc] at h
          cases h
          exact ⟨fun hs => (by cases hs), fun _ => rfl, rfl, rfl⟩
        · rw [if_neg hc] at h
          rw [if_neg hc]
          by_cases hfit : t + l.length < MAX_FILE_SIZE
          · rw [if_pos hfit] at h
            rw [if_pos hfit]
            by_cases hmem : t + l.length ≤ file.data.length
            · rw [memcpy_at_eq _ _ _ hmem] at h
              simp only [] at h
              have hr := ih _ _ _ r h
              refine ⟨hr.1, hr.2.1, hr.2.2.1, ?_⟩
              rw [hr.2.2.2]
              exact memcpy_length _ _ _ hmem
            · have hnone : memcpy_at file.data t l = none := by
                simp [memcpy_at, hmem]
              rw [hnone] at h
              cases h
          · rw [if_neg hfit] at h
            rw [if_neg hfit]
            exact ih _ _ _ r h

/-- The accumulated length stays at or below `MAX_FILE_SIZE - 1`. -/
theorem edit_total_size_le (lines : List CStr) :
    ∀ t, t ≤ MAX_FILE_SIZE - 1 → edit_total_size t lines ≤ MAX_FILE_SIZE - 1 ∧
      t ≤ edit_total_size t lines := by
  induction lines with
  | nil => intro t ht; exact ⟨ht, Nat.le_refl _⟩
  | cons l ls ih =>
    intro t ht
    rw [edit_total_size]
    split
    · exact ⟨ht, Nat.le_refl _⟩
    · split
      · exact ⟨ht, Nat.le_refl _⟩
      · split
        · exact ⟨ht, Nat.le_refl _⟩
        · split
          · rename_i hfit
            have h := ih (t + l.length) (by omega)
            exact ⟨h.1, by omega⟩
          · exact ih t ht

/-- While the buffer of the file has `MAX_FILE_SIZE` bytes or more, the loop of
`edit_file` has a result for every input. -/
theorem edit_loop_total (lines : List CStr) :
    ∀ (file : File) (t : Nat) (out : Output), MAX_FILE_SIZE ≤ file.data.length →
      ∃ r, edit_loop file t out lines = some r := by
  induction lines with
  | nil =>
    intro file t out _
    rw [edit_loop]
    split <;> exact ⟨_, rfl⟩
  | cons l ls ih =>
    intro file t out hcap
    rw [edit_loop]
    split
    · exact ⟨_, rfl⟩
    · rename_i ht
      split
      · rw [if_pos (by omega)]
        exact ⟨_, rfl⟩
      · split
        · exact ⟨_, rfl⟩
        · split
          · rename_i hfit
            have hmem : t + l.length ≤ file.data.length := by omega
            rw [memcpy_at_eq _ _ _ hmem]
            simp only []
            apply ih
            show MAX_FILE_SIZE ≤ (file.data.take t ++ l ++ file.data.drop (t + l.length)).length
            rw [memcpy_length _ _ _ hmem]
            exact hcap
          · exact ih _ _ _ hcap

/-- C19. An edit session that ends as saved leaves the file with a size of at most
`MAX_FILE_SIZE - 2`: the size is the accumulated length, the accumulated length never
exceeds `MAX_FILE_SIZE - 1` whatever the input, and at `MAX_FILE_SIZE - 1` or more the
loop stops with the size limit without reading another line. -/
theorem edit_saved_size_bound (file : File) (stdin : List CStr) (r : EditResult)
    (h : edit_file file stdin = some r) (hs : r.exit = EditExit.saved) :
    r.file.size ≤ MAX_FILE_SIZE - 2 ∧
    r.file.size = edit_total_size 0 stdin ∧
    (∀ lines : List CStr, edit_total_size 0 lines ≤ MAX_FILE_SIZE - 1) ∧
    (∀ (f : File) (t : Nat) (out : Output) (lines : List CStr), MAX_FILE_SIZE - 1 ≤ t →
      edit_loop f t out lines =
        some ⟨f, lines, out ++ ["File size limit reached.\n".toList],
          EditExit.sizeLimit⟩) := by
  have hr := (edit_loop_result stdin file 0 _ r h).1 hs
  refine ⟨?_, hr.1, fun lines => (edit_total_size_le lines 0 (Nat.zero_le _)).1,
    edit_loop_at_limit⟩
  have h2 := hr.2
  omega

/-- C19, at the lines `hello`, `world`, `SAVE` and a buffer of sixteen bytes. -/
theorem edit_saved_size_bound_witness :
    (File.mk "f".toList ("hello\nworld\n".toList ++ Char.ofNat 0 :: "zzz".toList) 12).size ≤
      MAX_FILE_SIZE - 2 ∧
    (File.mk "f".toList ("hello\nworld\n".toList ++ Char.ofNat 0 :: "zzz".toList) 12).size =
      edit_total_size 0 ["hello\n".toList, "world\n".toList, "SAVE\n".toList] ∧
    (∀ lines : List CStr, edit_total_size 0 lines ≤ MAX_FILE_SIZE - 1) ∧
    (∀ (f : File) (t : Nat) (out : Output) (lines : List CStr), MAX_FILE_SIZE - 1 ≤ t →
      edit_loop f t out lines =
        some ⟨f, lines, out ++ ["File size limit reached.\n".toList],
          EditExit.sizeLimit⟩) :=
  edit_saved_size_bound ⟨"f".toList, "zzzzzzzzzzzzzzzz".toList, 0⟩
    ["hello\n".toList, "world\n".toList, "SAVE\n".toList]
    ⟨⟨"f".toList, "hello\nworld\n".toList ++ Char.ofNat 0 :: "zzz".toList, 12⟩, [],
      ["Editing file 'f'. Type 'SAVE' to save changes and 'CANCEL' to discard changes.\n".toList,
       ">> ".toList, ">> ".toList, ">> ".toList, "File saved.\n".toList],
      EditExit.saved⟩
    (by decide) rfl

/-- C18 as stated fails for `create_file`: it stores the `size` it is given, with no
test against `MAX_FILE_SIZE`; on a source of 40000 bytes and `size = 40000` the file
returned has size 40000. -/
theorem create_file_size_unbounded :
    (create_file [] "f".toList (List.replicate 40000 'a') 40000).map
        (fun r => r.1.map (fun f => f.size)) = some [40000] ∧
    MAX_FILE_SIZE < 40000 := by
  constructor
  · have hn : "f".toList.length < MAX_NAME_LENGTH := by decide
    have hl : 40000 ≤ (List.replicate 40000 'a').length := by
      rw [List.length_replicate]
    rw [create_file, if_pos hn, if_pos hl]
    rfl
  · decide

/-- C18 as amended. An edit session on a file whose size is at most `MAX_FILE_SIZE`
returns a file whose size is at most `MAX_FILE_SIZE`, however the session ends, and
with a buffer of `MAX_FILE_SIZE` bytes every session has a result; `create_file`
returns a file whose size is the argument `size`, which for the file that `touch`
creates is at most `MAX_NAME_LENGTH`. -/
theorem file_size_bound (file : File) (stdin : List CStr) (r : EditResult)
    (h : edit_file file stdin = some r) (hsz : file.size ≤ MAX_FILE_SIZE) :
    r.file.size ≤ MAX_FILE_SIZE ∧
    (∀ (f : File) (lines : List CStr), MAX_FILE_SIZE ≤ f.data.length →
      ∃ r1, edit_file f lines = some r1) ∧
    (∀ (files : List File) (name : CStr) (data : List Char) (size : Nat),
      name.length < MAX_NAME_LENGTH → size ≤ data.length →
      ∃ f, create_file files name data size = some (files ++ [f], some files.length) ∧
        f.size = size) ∧
    (∀ (files : List File) (name data : CStr),
      name.length < MAX_NAME_LENGTH → data.length < MAX_NAME_LENGTH →
      ∃ f, create_file files name (data ++ [Char.ofNat 0]) (data.length + 1) =
          some (files ++ [f], some files.length) ∧
        f.size ≤ MAX_NAME_LENGTH ∧ f.size ≤ MAX_FILE_SIZE) := by
  have hr := edit_loop_result stdin file 0 _ r h
  refine ⟨?_, ?_, ?_, ?_⟩
  · by_cases hs : r.exit = EditExit.saved
    · have h1 := (hr.1 hs).2
      omega
    · rw [hr.2.1 hs]
      exact hsz
  · intro f lines hcap
    exact edit_loop_total lines f 0 _ hcap
  · intro files name data size hn hsize
    refine ⟨⟨name, data.take size, size⟩, ?_, rfl⟩
    simp [create_file, hn, hsize]
  · intro files name data hn hdata
    refine ⟨⟨name, (data ++ [Char.ofNat 0]).take (data.length + 1), data.length + 1⟩,
      ?_, ?_, ?_⟩
    · simp [create_file, hn]
    · show data.length + 1 ≤ MAX_NAME_LENGTH
      omega
    · show data.length + 1 ≤ MAX_FILE_SIZE
      have h12 : MAX_NAME_LENGTH ≤ MAX_FILE_SIZE := by decide
      omega

/-- C18 as amended, at the lines `xy`, `CANCEL` on the file that `touch f abc` creates. -/
theorem file_size_bound_witness :
    (File.mk "f".toList ("xy\n".toList ++ [Char.ofNat 0]) 4).size ≤ MAX_FILE_SIZE ∧
    (∀ (f : File) (lines : List CStr), MAX_FILE_SIZE ≤ f.data.length →
      ∃ r1, edit_file f lines = some r1) ∧
    (∀ (files : List File) (name : CStr) (data : List Char) (size : Nat),
      name.length < MAX_NAME_LENGTH → size ≤ data.length →
      ∃ f, create_file files name data size = some (files ++ [f], some files.length) ∧
        f.size = size) ∧
    (∀ (files : List File) (name data : CStr),
      name.length < MAX_NAME_LENGTH → data.length < MAX_NAME_LENGTH →
      ∃ f, create_file files name (data ++ [Char.ofNat 0]) (data.length + 1) =
          some (files ++ [f], some files.length) ∧
        f.size ≤ MAX_NAME_LENGTH ∧ f.size ≤ MAX_FILE_SIZE) :=
  file_size_bound ⟨"f".toList, "abc".toList ++ [Char.ofNat 0], 4⟩
    ["xy\n".toList, "CANCEL\n".toList]
    ⟨⟨"f".toList, "xy\n".toList ++ [Char.ofNat 0], 4⟩, [],
      ["Editing file 'f'. Type 'SAVE' to save changes and 'CANCEL' to discard changes.\n".toList,
       ">> ".toList, ">> ".toList, "Editing cancelled.\n".toList],
      EditExit.cancelled⟩
    (by decide) (by decide)

/-! ## The invariant of the tree -/

theorem mem_children_iff (d : Directory) (p : Ptr) :
    p ∈ d.children ↔ ∃ i, i < d.subdir_count ∧ d.subdirs.read i = some p := by
  unfold Directory.children Slots.read
  rw [List.mem_iff_getElem?]
  constructor
  · rintro ⟨i, hi⟩
    rw [List.getElem?_take] at hi
    by_cases h : i < d.subdir_count
    · rw [if_pos h] at hi
      exact ⟨i, h, hi⟩
    · rw [if_neg h] at hi
      cases hi
  · rintro ⟨i, h, hi⟩
    refine ⟨i, ?_⟩
    rw [List.getElem?_take, if_pos h]
    exact hi

theorem reachable_mono (dirs dirs1 : List Directory)
    (h : ∀ (a : Nat) (d : Directory), dirs[a]? = some d →
      ∃ d1 : Directory, dirs1[a]? = some d1 ∧ ∀ p, p ∈ d.children → p ∈ d1.children)
    (c : Nat) (hc : Reachable dirs c) : Reachable dirs1 c := by
  induction hc with
  | root => exact Reachable.root
  | child a b d _ hd hb ih =>
    obtain ⟨d1, h1, h2⟩ := h a d hd
    exact Reachable.child a b d1 ih h1 (h2 _ hb)

theorem wellformed_init : Wellformed init_filesystem := by
  refine ⟨⟨0, rfl, by decide, Reachable.root⟩, ?_, ?_, ?_⟩
  · intro a d h
    cases a with
    | zero =>
      simp only [init_filesystem, List.getElem?_cons_zero, Option.some.injEq] at h
      subst h
      decide
    | succ n => simp [init_filesystem] at h
  · intro a d i h hi
    cases a with
    | zero =>
      simp only [init_filesystem, List.getElem?_cons_zero, Option.some.injEq] at h
      subst h
      simp at hi
    | succ n => simp [init_filesystem] at h
  · intro a d h
    cases a with
    | zero =>
      simp only [init_filesystem, List.getElem?_cons_zero, Option.some.injEq] at h
      subst h
      simp
    | succ n => simp [init_filesystem] at h

/-- The invariant speaks of the directory objects and the cursor only. -/
theorem wellformed_of_eq (fs fs1 : FileSystem) (h : Wellformed fs)
    (hd : fs1.dirs = fs.dirs) (hc : fs1.current_dir = fs.current_dir) :
    Wellformed fs1 := by
  obtain ⟨h1, h2, h3, h4⟩ := h
  refine ⟨?_, ?_, ?_, ?_⟩
  · rw [hd, hc]; exact h1
  · rw [hd]; exact h2
  · rw [hd]; exact h3
  · rw [hd]; exact h4

/-- The objects of the heap after the assignments of one `mkdir`. -/
theorem mkdir_heap_cases (dirs : List Directory) (c : Nat) (d d1 new : Directory)
    (hd : dirs[c]? = some d) (a : Nat) (x : Directory)
    (hx : ((dirs ++ [new]).set c d1)[a]? = some x) :
    (a = c ∧ x = d1) ∨ (a = dirs.length ∧ x = new) ∨ (a ≠ c ∧ dirs[a]? = some x) := by
  have hlt : c < dirs.length := lt_length_of_getElem? hd
  by_cases hac : c = a
  · subst hac
    rw [List.getElem?_set] at hx
    simp only [if_true] at hx
    have hlt1 : c < (dirs ++ [new]).length := by simp; omega
    rw [if_pos hlt1] at hx
    cases hx
    exact Or.inl ⟨rfl, rfl⟩
  · rw [List.getElem?_set_ne hac] at hx
    have ha : a < (dirs ++ [new]).length := lt_length_of_getElem? hx
    simp only [List.length_append, List.length_singleton] at ha
    by_cases hal : a < dirs.length
    · rw [List.getElem?_append_left hal] at hx
      exact Or.inr (Or.inr ⟨fun h => hac h.symm, hx⟩)
    · have hal1 : a = dirs.length := by omega
      subst hal1
      simp at hx
      exact Or.inr (Or.inl ⟨rfl, hx.symm⟩)

/-- The invariant after the assignments of one `mkdir` in the current directory. -/
theorem wellformed_mkdir (fs : FileSystem) (c : Nat) (d : Directory) (name : CStr)
    (h : Wellformed fs) (hc : fs.current_dir = some c) (hd : fs.dirs[c]? = some d) :
    Wellformed
      ⟨(fs.dirs ++ [new_directory (some c) name]).set c
          (if d.subdir_count < MAX_FILES then d.with_subdir (some fs.dirs.length) else d),
        fs.files, fs.current_dir⟩ := by
  have hlt : c < fs.dirs.length := lt_length_of_getElem? hd
  have hname : (if d.subdir_count < MAX_FILES then d.with_subdir (some fs.dirs.length)
      else d).name = d.name := by split <;> rfl
  have hpar : (if d.subdir_count < MAX_FILES then d.with_subdir (some fs.dirs.length)
      else d).parent = d.parent := by split <;> rfl
  have hnames := mkdir_heap_names fs.dirs c d _ (new_directory (some c) name) hd hname hpar
  have hcases := mkdir_heap_cases fs.dirs c d
    (if d.subdir_count < MAX_FILES then d.with_subdir (some fs.dirs.length) else d)
    (new_directory (some c) name) hd
  have hcur : ((fs.dirs ++ [new_directory (some c) name]).set c
      (if d.subdir_count < MAX_FILES then d.with_subdir (some fs.dirs.length) else d))[c]? =
      some (if d.subdir_count < MAX_FILES then d.with_subdir (some fs.dirs.length)
        else d) := by
    rw [List.getElem?_set]
    simp
    omega
  have hnew : ((fs.dirs ++ [new_directory (some c) name]).set c
      (if d.subdir_count < MAX_FILES then d.with_subdir (some fs.dirs.length)
        else d))[fs.dirs.length]? = some (new_directory (some c) name) := by
    have hne : c ≠ fs.dirs.length := by omega
    rw [List.getElem?_set_ne hne]
    simp
  -- a slot of the old directory that is in use keeps its child, with the same parent link
  have hold : ∀ (a : Nat) (x : Directory) (i : Nat), fs.dirs[a]? = some x →
      i < x.subdir_count →
      ∃ (b : Nat) (sd : Directory), x.subdirs.read i = some (some b) ∧
        ((fs.dirs ++ [new_directory (some c) name]).set c
          (if d.subdir_count < MAX_FILES then d.with_subdir (some fs.dirs.length)
            else d))[b]? = some sd ∧ sd.parent = some a := by
    intro a x i hx hi
    obtain ⟨b, sd, h1, h2, h3⟩ := h.links a x i hx hi
    obtain ⟨sd1, h4, _, h5⟩ := hnames b sd h2
    exact ⟨b, sd1, h1, h4, h5.trans h3⟩
  refine ⟨?_, ?_, ?_, ?_⟩
  · obtain ⟨c1, hc1, _, hreach⟩ := h.cursor
    have hcc : c1 = c := by
      rw [hc] at hc1
      cases hc1
      rfl
    subst hcc
    refine ⟨c1, hc, by simp; omega, ?_⟩
    refine reachable_mono fs.dirs _ ?_ c1 hreach
    intro a x hx
    by_cases hac : a = c1
    · subst hac
      rw [hd] at hx
      cases hx
      refine ⟨_, hcur, ?_⟩
      intro p hp
      by_cases hfull : d.subdir_count < MAX_FILES
      · rw [if_pos hfull, with_subdir_children d _ hfull]
        exact List.mem_append_left _ hp
      · rw [if_neg hfull]
        exact hp
    · refine ⟨x, ?_, fun p hp => hp⟩
      have ha : a < fs.dirs.length := lt_length_of_getElem? hx
      rw [List.getElem?_set_ne (fun h => hac h.symm), List.getElem?_append_left ha]
      exact hx
  · intro a x hx
    rcases hcases a x hx with ⟨_, rfl⟩ | ⟨_, rfl⟩ | ⟨_, hx1⟩
    · have hcnt := h.counts c d hd
      by_cases hfull : d.subdir_count < MAX_FILES
      · rw [if_pos hfull]
        exact ⟨hfull, hcnt.2⟩
      · rw [if_neg hfull]
        exact hcnt
    · exact ⟨Nat.zero_le _, Nat.zero_le _⟩
    · exact h.counts a x hx1
  · intro a x i hx hi
    rcases hcases a x hx with ⟨rfl, rfl⟩ | ⟨_, rfl⟩ | ⟨_, hx1⟩
    · by_cases hfull : d.subdir_count < MAX_FILES
      · rw [if_pos hfull] at hi ⊢
        have hi1 : i < d.subdir_count + 1 := hi
        by_cases hlast : i = d.subdir_count
        · subst hlast
          have hcl : d.subdir_count < d.subdirs.1.length := by rw [d.subdirs.2]; exact hfull
          refine ⟨fs.dirs.length, new_directory (some a) name, ?_, ?_, rfl⟩
          · simp only [Slots.read, Directory.with_subdir, Slots.write, List.getElem?_set,
              if_true, hcl]
          · rw [if_pos hfull] at hnew
            exact hnew
        · have hi2 : i < d.subdir_count := by omega
          obtain ⟨b, sd, h1, h2, h3⟩ := hold a d i hd hi2
          refine ⟨b, sd, ?_, ?_, h3⟩
          · have hne : d.subdir_count ≠ i := fun h => hlast h.symm
            simp only [Slots.read, Directory.with_subdir, Slots.write]
            rw [List.getElem?_set_ne hne]
            exact h1
          · rw [if_pos hfull] at h2
            exact h2
      · rw [if_neg hfull] at hi ⊢
        obtain ⟨b, sd, h1, h2, h3⟩ := hold a d i hd hi
        rw [if_neg hfull] at h2
        exact ⟨b, sd, h1, h2, h3⟩
    · exact absurd hi (Nat.not_lt_zero i)
    · exact hold a x i hx1 hi
  · intro a x hx
    rcases hcases a x hx with ⟨rfl, rfl⟩ | ⟨rfl, rfl⟩ | ⟨_, hx1⟩
    · rw [hpar]
      exact h.parent_null a d hd
    · constructor
      · intro hnone
        cases hnone
      · intro hzero
        omega
    · exact h.parent_null a x hx1

/-- The state that the branch `mkdir` leaves. -/
theorem do_mkdir_result (fs : FileSystem) (c : Nat) (d : Directory) (name : CStr)
    (stdin : List CStr) (s : Step) (hc : fs.current_dir = some c)
    (hd : fs.dirs[c]? = some d) (h : do_mkdir fs name stdin = some s) :
    name.length < MAX_NAME_LENGTH ∧
    s.fs = ⟨(fs.dirs ++ [new_directory (some c) name]).set c
        (if d.subdir_count < MAX_FILES then d.with_subdir (some fs.dirs.length) else d),
      fs.files, fs.current_dir⟩ ∧ s.stdin = stdin ∧ s.exited = false := by
  have hlt : c < fs.dirs.length := lt_length_of_getElem? hd
  have hlt1 : c < fs.dirs.length + 1 := by omega
  have hd1 : (fs.dirs ++ [new_directory (some c) name])[c]? = some d := by
    rw [List.getElem?_append_left hlt]; exact hd
  by_cases hn : name.length < MAX_NAME_LENGTH
  · refine ⟨hn, ?_⟩
    by_cases hfull : d.subdir_count < MAX_FILES
    · simp [do_mkdir, create_directory, hn, add_directory, hc, deref, hd1, hfull, store,
        hlt1] at h
      subst h
      simp [hc, hfull]
    · simp [do_mkdir, create_directory, hn, add_directory, hc, deref, hd1, hfull] at h
      subst h
      simp [hc, hfull, set_same _ _ _ hd1]
  · simp [do_mkdir, create_directory, hn] at h

/-- The invariant after a change of the current directory that leaves its parent link
and its children as they were. -/
theorem wellformed_set (fs : FileSystem) (c : Nat) (d d1 : Directory) (files1 : List File)
    (h : Wellformed fs) (hd : fs.dirs[c]? = some d) (hpar : d1.parent = d.parent)
    (hsub : d1.subdirs = d.subdirs) (hcnt : d1.subdir_count = d.subdir_count)
    (hfc : d1.file_count ≤ MAX_FILES) :
    Wellformed ⟨fs.dirs.set c d1, files1, fs.current_dir⟩ := by
  have hlt : c < fs.dirs.length := lt_length_of_getElem? hd
  have hcases : ∀ (a : Nat) (x : Directory), (fs.dirs.set c d1)[a]? = some x →
      (a = c ∧ x = d1) ∨ (a ≠ c ∧ fs.dirs[a]? = some x) := by
    intro a x hx
    by_cases hac : c = a
    · subst hac
      rw [List.getElem?_set] at hx
      simp only [if_true, if_pos hlt] at hx
      cases hx
      exact Or.inl ⟨rfl, rfl⟩
    · rw [List.getElem?_set_ne hac] at hx
      exact Or.inr ⟨fun h => hac h.symm, hx⟩
  have hkeep : ∀ (b : Nat) (sd : Directory), fs.dirs[b]? = some sd →
      ∃ sd1 : Directory, (fs.dirs.set c d1)[b]? = some sd1 ∧ sd1.parent = sd.parent ∧
        sd1.children = sd.children := by
    intro b sd hb
    by_cases hbc : c = b
    · subst hbc
      rw [hd] at hb
      cases hb
      refine ⟨d1, ?_, hpar, ?_⟩
      · rw [List.getElem?_set]
        simp only [if_true, if_pos hlt]
      · simp only [Directory.children, hsub, hcnt]
    · exact ⟨sd, by rw [List.getElem?_set_ne hbc]; exact hb, rfl, rfl⟩
  have hold : ∀ (a : Nat) (x : Directory) (i : Nat), fs.dirs[a]? = some x →
      i < x.subdir_count →
      ∃ (b : Nat) (sd : Directory), x.subdirs.read i = some (some b) ∧
        (fs.dirs.set c d1)[b]? = some sd ∧ sd.parent = some a := by
    intro a x i hx hi
    obtain ⟨b, sd, h1, h2, h3⟩ := h.links a x i hx hi
    obtain ⟨sd1, h4, h5, _⟩ := hkeep b sd h2
    exact ⟨b, sd1, h1, h4, h5.trans h3⟩
  refine ⟨?_, ?_, ?_, ?_⟩
  · obtain ⟨c1, hc1, hc2, hreach⟩ := h.cursor
    refine ⟨c1, hc1, by simpa using hc2, ?_⟩
    refine reachable_mono fs.dirs _ ?_ c1 hreach
    intro a x hx
    obtain ⟨sd1, h4, _, h6⟩ := hkeep a x hx
    exact ⟨sd1, h4, fun p hp => by rw [h6]; exact hp⟩
  · intro a x hx
    rcases hcases a x hx with ⟨_, rfl⟩ | ⟨_, hx1⟩
    · rw [hcnt]
      exact ⟨(h.counts c d hd).1, hfc⟩
    · exact h.counts a x hx1
  · intro a x i hx hi
    rcases hcases a x hx with ⟨rfl, rfl⟩ | ⟨_, hx1⟩
    · rw [hcnt] at hi
      rw [hsub]
      exact hold a d i hd hi
    · exact hold a x i hx1 hi
  · intro a x hx
    rcases hcases a x hx with ⟨rfl, rfl⟩ | ⟨_, hx1⟩
    · rw [hpar]
      exact h.parent_null a d hd
    · exact h.parent_null a x hx1

/-- The invariant after the branch `mkdir`. -/
theorem wellformed_do_mkdir (fs : FileSystem) (name : CStr) (stdin : List CStr) (s : Step)
    (h : Wellformed fs) (hs : do_mkdir fs name stdin = some s) : Wellformed s.fs := by
  obtain ⟨c, hc, hlt, _⟩ := h.cursor
  obtain ⟨d, hd⟩ : ∃ d, fs.dirs[c]? = some d :=
    ⟨fs.dirs[c], List.getElem?_eq_getElem hlt⟩
  obtain ⟨_, hfs, _, _⟩ := do_mkdir_result fs c d name stdin s hc hd hs
  rw [hfs]
  exact wellformed_mkdir fs c d name h hc hd

/-- The invariant after the branch `touch`. -/
theorem wellformed_do_touch (fs : FileSystem) (arg1 arg2 : CStr) (stdin : List CStr)
    (s : Step) (h : Wellformed fs) (hs : do_touch fs arg1 arg2 stdin = some s) :
    Wellformed s.fs := by
  obtain ⟨c, hc, hlt, _⟩ := h.cursor
  obtain ⟨d, hd⟩ : ∃ d, fs.dirs[c]? = some d :=
    ⟨fs.dirs[c], List.getElem?_eq_getElem hlt⟩
  unfold do_touch at hs
  cases hcf : create_file fs.files arg1 (arg2 ++ [Char.ofNat 0]) (arg2.length + 1) with
  | none => simp [hcf] at hs
  | some r =>
    obtain ⟨files1, new_file⟩ := r
    simp only [hcf] at hs
    by_cases hfull : d.file_count < MAX_FILES
    · simp [add_file, hc, deref, hd, hfull, store, hlt] at hs
      subst hs
      have hw := wellformed_set fs c d (d.with_file new_file) files1 h hd rfl rfl rfl hfull
      rw [hc] at hw
      exact hw
    · simp [add_file, hc, deref, hd, hfull] at hs
      subst hs
      exact wellformed_of_eq fs _ h rfl hc.symm

theorem change_directory_scan_some (dirs : List Directory) (d : Directory) (path : CStr)
    (is : List Nat) (p : Ptr)
    (h : change_directory_scan dirs d path is = some (some p)) :
    ∃ i, i ∈ is ∧ d.subdirs.read i = some p ∧
      ∃ sd, deref dirs p = some sd ∧ sd.name = path := by
  induction is with
  | nil => simp [change_directory_scan] at h
  | cons i is ih =>
    unfold change_directory_scan at h
    cases hr : d.subdirs.read i with
    | none => simp [hr] at h
    | some q =>
      cases hq : deref dirs q with
      | none => simp [hr, hq] at h
      | some sd =>
        simp only [hr, hq] at h
        by_cases hname : sd.name = path
        · rw [if_pos hname] at h
          simp only [Option.some.injEq] at h
          subst h
          exact ⟨i, List.mem_cons_self i is, hr, sd, hq, hname⟩
        · rw [if_neg hname] at h
          obtain ⟨j, hj, h1, h2⟩ := ih h
          exact ⟨j, List.mem_cons_of_mem i hj, h1, h2⟩

/-- The parent of a reachable directory is an object reachable from the root. -/
theorem reachable_parent (fs : FileSystem) (h : Wellformed fs) (c b : Nat)
    (d : Directory) (hr : Reachable fs.dirs c) (hd : fs.dirs[c]? = some d)
    (hp : d.parent = some b) : b < fs.dirs.length ∧ Reachable fs.dirs b := by
  cases hr with
  | root =>
    have h0 := (h.parent_null 0 d hd).2 rfl
    rw [hp] at h0
    cases h0
  | child a _ da hra hda hmem =>
    obtain ⟨i, hi, hread⟩ := (mem_children_iff da (some c)).1 hmem
    obtain ⟨b1, sd, h1, h2, h3⟩ := h.links a da i hda hi
    rw [hread] at h1
    simp only [Option.some.injEq] at h1
    subst h1
    rw [hd] at h2
    cases h2
    rw [hp] at h3
    cases h3
    exact ⟨lt_length_of_getElem? hda, hra⟩

/-- The invariant after `change_directory`. -/
theorem wellformed_change_directory (fs fs1 : FileSystem) (path : CStr) (out : Output)
    (h : Wellformed fs) (hcd : change_directory fs path = some (fs1, out)) :
    Wellformed fs1 := by
  obtain ⟨c, hc, hlt, hreach⟩ := h.cursor
  obtain ⟨d, hd⟩ : ∃ d, fs.dirs[c]? = some d :=
    ⟨fs.dirs[c], List.getElem?_eq_getElem hlt⟩
  unfold change_directory at hcd
  simp only [hc, deref, hd] at hcd
  by_cases hup : path = "..".toList
  · rw [if_pos hup] at hcd
    cases hp : d.parent with
    | none =>
      simp only [hp, Option.some.injEq, Prod.mk.injEq] at hcd
      rw [← hcd.1]
      exact h
    | some b =>
      simp only [hp, Option.some.injEq, Prod.mk.injEq] at hcd
      rw [← hcd.1]
      obtain ⟨hb, hrb⟩ := reachable_parent fs h c b d hreach hd hp
      exact ⟨⟨b, rfl, hb, hrb⟩, h.counts, h.links, h.parent_null⟩
  · rw [if_neg hup] at hcd
    cases hscan : change_directory_scan fs.dirs d path (List.range d.subdir_count) with
    | none => simp [hscan] at hcd
    | some res =>
      cases res with
      | none =>
        simp only [hscan, Option.some.injEq, Prod.mk.injEq] at hcd
        rw [← hcd.1]
        exact h
      | some p =>
        simp only [hscan, Option.some.injEq, Prod.mk.injEq] at hcd
        rw [← hcd.1]
        obtain ⟨i, hi, hread, _⟩ := change_directory_scan_some fs.dirs d path _ p hscan
        have hi1 : i < d.subdir_count := List.mem_range.1 hi
        obtain ⟨b, sd, h1, h2, _⟩ := h.links c d i hd hi1
        rw [hread] at h1
        simp only [Option.some.injEq] at h1
        subst h1
        have hmem : some b ∈ d.children := (mem_children_iff d (some b)).2 ⟨i, hi1, hread⟩
        exact ⟨⟨b, rfl, lt_length_of_getElem? h2, Reachable.child c b d hreach hd hmem⟩,
          h.counts, h.links, h.parent_null⟩

/-- The branch `edit` changes neither the directory objects nor the cursor. -/
theorem do_edit_dirs (fs : FileSystem) (arg1 : CStr) (stdin : List CStr) (s : Step)
    (hs : do_edit fs arg1 stdin = some s) :
    s.fs.dirs = fs.dirs ∧ s.fs.current_dir = fs.current_dir := by
  unfold do_edit at hs
  cases hf : find_file fs.dirs fs.files fs.current_dir arg1 with
  | none => simp [hf] at hs
  | some res =>
    cases res with
    | none =>
      simp only [hf, Option.some.injEq] at hs
      subst hs
      exact ⟨rfl, rfl⟩
    | some a =>
      simp only [hf] at hs
      cases hfa : fs.files[a]? with
      | none => simp [hfa] at hs
      | some file =>
        simp only [hfa] at hs
        cases he : edit_file file stdin with
        | none => simp [he] at hs
        | some r =>
          simp only [he, Option.some.injEq] at hs
          subst hs
          exact ⟨rfl, rfl⟩

/-- The invariant after `handle_command`, whatever the command. -/
theorem wellformed_handle_command (fs : FileSystem) (words : List CStr)
    (stdin : List CStr) (s : Step) (h : Wellformed fs)
    (hs : handle_command fs words stdin = some s) : Wellformed s.fs := by
  unfold handle_command at hs
  cases words with
  | nil => simp at hs
  | cons cmd args =>
    simp only [] at hs
    split at hs
    · cases hs
    · split at hs
      · exact wellformed_do_mkdir fs _ stdin s h hs
      · split at hs
        · exact wellformed_do_touch fs _ _ stdin s h hs
        · split at hs
          · cases hls : list_directory fs.dirs fs.files fs.current_dir with
            | none => simp [hls] at hs
            | some out =>
              simp only [hls, Option.some.injEq] at hs
              subst hs
              exact h
          · split at hs
            · split at hs
              · cases hs
              · rename_i fs1 out hcd
                simp only [Option.some.injEq] at hs
                subst hs
                exact wellformed_change_directory fs fs1 _ out h hcd
            · split at hs
              · unfold do_pwd at hs
                cases hp : get_current_path fs.dirs fs.dirs.length fs.current_dir [] with
                | none => simp [hp] at hs
                | some path =>
                  simp only [hp] at hs
                  split at hs
                  · simp only [Option.some.injEq] at hs
                    subst hs
                    exact h
                  · cases hs
              · split at hs
                · obtain ⟨h1, h2⟩ := do_edit_dirs fs _ stdin s hs
                  exact wellformed_of_eq fs s.fs h h1 h2
                · split at hs
                  · simp only [Option.some.injEq] at hs
                    subst hs
                    exact h
                  · simp only [Option.some.injEq] at hs
                    subst hs
                    exact h

/-- The invariant after any sequence of commands. -/
theorem wellformed_run_commands (cmds : List (List CStr)) :
    ∀ (fs : FileSystem) (stdin : List CStr) (out : Output) (s : Step),
      Wellformed fs → run_commands fs stdin out cmds = some s → Wellformed s.fs := by
  induction cmds with
  | nil =>
    intro fs stdin out s h hs
    simp only [run_commands, Option.some.injEq] at hs
    subst hs
    exact h
  | cons words rest ih =>
    intro fs stdin out s h hs
    unfold run_commands at hs
    cases hstep : handle_command fs words stdin with
    | none => simp [hstep] at hs
    | some s1 =>
      have h1 := wellformed_handle_command fs words stdin s1 h hstep
      simp only [hstep] at hs
      split at hs
      · simp only [Option.some.injEq] at hs
        subst hs
        exact h1
      · exact ih s1.fs s1.stdin _ s h1 hs

/-- Every state that the commands reach from the initial state has the invariant. -/
theorem wellformed_reached (cmds : List (List CStr)) (stdin : List CStr) (s : Step)
    (h : run_commands init_filesystem stdin [] cmds = some s) : Wellformed s.fs :=
  wellformed_run_commands cmds init_filesystem stdin [] s wellformed_init h

/-- In a state with the invariant the scan of `change_directory` either runs out, and
then no child scanned has the name, or stops at a child of that name whose parent link
is the directory scanned. -/
theorem change_directory_scan_wellformed (fs : FileSystem) (h : Wellformed fs) (c : Nat)
    (d : Directory) (path : CStr) (hd : fs.dirs[c]? = some d) (is : List Nat)
    (his : ∀ i ∈ is, i < d.subdir_count) :
    (change_directory_scan fs.dirs d path is = some none ∧
      ∀ i ∈ is, ∀ (q : Ptr) (sd : Directory), d.subdirs.read i = some q →
        deref fs.dirs q = some sd → sd.name ≠ path) ∨
    (∃ (b : Nat) (sd : Directory),
      change_directory_scan fs.dirs d path is = some (some (some b)) ∧
      fs.dirs[b]? = some sd ∧ sd.parent = some c ∧ sd.name = path) := by
  induction is with
  | nil =>
    left
    exact ⟨rfl, fun i hi => by cases hi⟩
  | cons i is ih =>
    obtain ⟨b, sd, h1, h2, h3⟩ := h.links c d i hd (his i (List.mem_cons_self i is))
    by_cases hname : sd.name = path
    · right
      refine ⟨b, sd, ?_, h2, h3, hname⟩
      simp [change_directory_scan, h1, deref, h2, hname]
    · rcases ih (fun j hj => his j (List.mem_cons_of_mem i hj)) with ⟨hn, hall⟩ | hfound
      · left
        refine ⟨?_, ?_⟩
        · simp [change_directory_scan, h1, deref, h2, hname, hn]
        · intro j hj q sq hq hsq
          rcases List.mem_cons.1 hj with rfl | hj1
          · rw [h1] at hq
            simp only [Option.some.injEq] at hq
            subst hq
            simp only [deref] at hsq
            rw [h2] at hsq
            cases hsq
            exact hname
          · exact hall j hj1 q sq hq hsq
      · right
        obtain ⟨b1, sd1, hs1, hs2, hs3, hs4⟩ := hfound
        refine ⟨b1, sd1, ?_, hs2, hs3, hs4⟩
        simp [change_directory_scan, h1, deref, h2, hname, hs1]

/-- C12. In every state that commands, of whatever kind and in whatever number, reach
from the initial state, the cursor is not `NULL` and is the address of a directory
object that is reachable from the root by child links. -/
theorem cursor_reachable (cmds : List (List CStr)) (stdin : List CStr) (s : Step)
    (h : run_commands init_filesystem stdin [] cmds = some s) :
    s.fs.current_dir ≠ none ∧
    ∃ (c : Nat) (d : Directory), s.fs.current_dir = some c ∧ s.fs.dirs[c]? = some d ∧
      Reachable s.fs.dirs c := by
  obtain ⟨c, hc, hlt, hr⟩ := (wellformed_reached cmds stdin s h).cursor
  refine ⟨?_, c, s.fs.dirs[c], hc, List.getElem?_eq_getElem hlt, hr⟩
  rw [hc]
  exact Option.some_ne_none c

/-- C12, at the session with every kind of command. -/
theorem cursor_reachable_witness :
    session_result.fs.current_dir ≠ none ∧
    ∃ (c : Nat) (d : Directory), session_result.fs.current_dir = some c ∧
      session_result.fs.dirs[c]? = some d ∧ Reachable session_result.fs.dirs c :=
  cursor_reachable session_commands ["CANCEL\n".toList] session_result (by decide)

/-- C16. In every state that commands reach from the initial state, every pointer in
the child collection of a directory object is the address of a directory object whose
parent link is that directory, the root has no parent, and every other directory
object has one. -/
theorem parent_links (cmds : List (List CStr)) (stdin : List CStr) (s : Step)
    (h : run_commands init_filesystem stdin [] cmds = some s) :
    (∀ (a : Nat) (d : Directory) (p : Ptr), s.fs.dirs[a]? = some d → p ∈ d.children →
      ∃ (b : Nat) (sd : Directory), p = some b ∧ s.fs.dirs[b]? = some sd ∧
        sd.parent = some a) ∧
    (∃ r, s.fs.dirs[0]? = some r ∧ r.parent = none) ∧
    (∀ (a : Nat) (d : Directory), s.fs.dirs[a]? = some d → (d.parent = none ↔ a = 0)) := by
  have hw := wellformed_reached cmds stdin s h
  refine ⟨?_, ?_, hw.parent_null⟩
  · intro a d p hd hp
    obtain ⟨i, hi, hread⟩ := (mem_children_iff d p).1 hp
    obtain ⟨b, sd, h1, h2, h3⟩ := hw.links a d i hd hi
    rw [hread] at h1
    simp only [Option.some.injEq] at h1
    exact ⟨b, sd, h1, h2, h3⟩
  · obtain ⟨c, _, hlt, _⟩ := hw.cursor
    have h0 : 0 < s.fs.dirs.length := by omega
    exact ⟨s.fs.dirs[0], List.getElem?_eq_getElem h0,
      (hw.parent_null 0 _ (List.getElem?_eq_getElem h0)).2 rfl⟩

/-- C16, at the session with every kind of command. -/
theorem parent_links_witness :
    (∀ (a : Nat) (d : Directory) (p : Ptr), session_result.fs.dirs[a]? = some d →
      p ∈ d.children →
      ∃ (b : Nat) (sd : Directory), p = some b ∧ session_result.fs.dirs[b]? = some sd ∧
        sd.parent = some a) ∧
    (∃ r, session_result.fs.dirs[0]? = some r ∧ r.parent = none) ∧
    (∀ (a : Nat) (d : Directory), session_result.fs.dirs[a]? = some d →
      (d.parent = none ↔ a = 0)) :=
  parent_links session_commands ["CANCEL\n".toList] session_result (by decide)

/-- C17. In every state that commands reach from the initial state, every directory
object has at most `MAX_FILES` children and at most `MAX_FILES` entries; the counters
are natural numbers. -/
theorem counts_bounded (cmds : List (List CStr)) (stdin : List CStr) (s : Step)
    (h : run_commands init_filesystem stdin [] cmds = some s) :
    ∀ (a : Nat) (d : Directory), s.fs.dirs[a]? = some d →
      0 ≤ d.subdir_count ∧ d.subdir_count ≤ MAX_FILES ∧
      0 ≤ d.file_count ∧ d.file_count ≤ MAX_FILES := by
  intro a d hd
  have hc := (wellformed_reached cmds stdin s h).counts a d hd
  exact ⟨Nat.zero_le _, hc.1, Nat.zero_le _, hc.2⟩

/-- C17, at the directory `a` of the session with every kind of command. -/
theorem counts_bounded_witness :
    0 ≤ (((new_directory (some 0) "a".toList).with_file (some 0)).with_subdir
        (some 2)).subdir_count ∧
    (((new_directory (some 0) "a".toList).with_file (some 0)).with_subdir
        (some 2)).subdir_count ≤ MAX_FILES ∧
    0 ≤ (((new_directory (some 0) "a".toList).with_file (some 0)).with_subdir
        (some 2)).file_count ∧
    (((new_directory (some 0) "a".toList).with_file (some 0)).with_subdir
        (some 2)).file_count ≤ MAX_FILES :=
  counts_bounded session_commands ["CANCEL\n".toList] session_result (by decide) 1
    (((new_directory (some 0) "a".toList).with_file (some 0)).with_subdir (some 2)) rfl

/-- C20. In every state that commands reach from the initial state, for a segment
other than `..` that is the name of a child of the current directory,
`change_directory` with the segment prints nothing and changes the cursor only, and
`change_directory` with `..` after it prints nothing and gives back the state from
before the two calls, cursor included. -/
theorem cd_then_up (cmds : List (List CStr)) (stdin : List CStr) (s : Step)
    (h : run_commands init_filesystem stdin [] cmds = some s)
    (path : CStr) (d : Directory) (k : Nat) (q : Ptr) (sd : Directory)
    (hd : deref s.fs.dirs s.fs.current_dir = some d) (hne : path ≠ "..".toList)
    (hk : k < d.subdir_count) (hq : d.subdirs.read k = some q)
    (hsd : deref s.fs.dirs q = some sd) (hname : sd.name = path) :
    ∃ fs1, change_directory s.fs path = some (fs1, []) ∧
      fs1.dirs = s.fs.dirs ∧ fs1.files = s.fs.files ∧
      change_directory fs1 "..".toList = some (s.fs, []) := by
  have hw := wellformed_reached cmds stdin s h
  obtain ⟨c, hc, hlt, _⟩ := hw.cursor
  have hdc : s.fs.dirs[c]? = some d := by
    rw [hc] at hd
    exact hd
  rcases change_directory_scan_wellformed s.fs hw c d path hdc (List.range d.subdir_count)
    (fun i hi => List.mem_range.1 hi) with ⟨_, hall⟩ | ⟨b, sb, hscan, hb, hpar, _⟩
  · exact absurd hname (hall k (List.mem_range.2 hk) q sd hq hsd)
  · refine ⟨⟨s.fs.dirs, s.fs.files, some b⟩, ?_, rfl, rfl, ?_⟩
    · unfold change_directory
      simp only [hd]
      rw [if_neg hne, hscan]
    · unfold change_directory
      simp only [deref, hb, hpar, if_true]
      rw [← hc]

/-- C20, at the state after `mkdir a` and the segment `a`. -/
theorem cd_then_up_witness :
    ∃ fs1, change_directory tree_a "a".toList = some (fs1, []) ∧
      fs1.dirs = tree_a.dirs ∧ fs1.files = tree_a.files ∧
      change_directory fs1 "..".toList = some (tree_a, []) :=
  cd_then_up [mkdir_words "a".toList] []
    ⟨tree_a, ["Directory 'a' created.\n".toList], [], false⟩ (by decide)
    "a".toList ((new_directory none "root".toList).with_subdir (some 1)) 0 (some 1)
    (new_directory (some 0) "a".toList) rfl (by decide) (by decide) rfl rfl rfl

/-! ## The recursion of `get_current_path` ends in every state reached -/

/-- How `handle_command` changes the directory objects: not at all, or it replaces the
current directory by one with the same parent link, after appending, for `mkdir`, the
new directory whose parent is the current one. -/
theorem handle_command_dirs (fs : FileSystem) (words : List CStr) (stdin : List CStr)
    (s : Step) (h : Wellformed fs) (hs : handle_command fs words stdin = some s) :
    s.fs.dirs = fs.dirs ∨
    ∃ (c : Nat) (d d1 : Directory), fs.dirs[c]? = some d ∧ d1.parent = d.parent ∧
      (s.fs.dirs = fs.dirs.set c d1 ∨
        ∃ name, s.fs.dirs = (fs.dirs ++ [new_directory (some c) name]).set c d1) := by
  obtain ⟨c, hc, hlt, _⟩ := h.cursor
  obtain ⟨d, hd⟩ : ∃ d, fs.dirs[c]? = some d :=
    ⟨fs.dirs[c], List.getElem?_eq_getElem hlt⟩
  unfold handle_command at hs
  cases words with
  | nil => simp at hs
  | cons cmd args =>
    simp only [] at hs
    split at hs
    · cases hs
    · split at hs
      · obtain ⟨_, hfs, _, _⟩ := do_mkdir_result fs c d _ stdin s hc hd hs
        right
        refine ⟨c, d, _, hd, ?_, Or.inr ⟨_, by rw [hfs]⟩⟩
        split <;> rfl
      · split at hs
        · unfold do_touch at hs
          split at hs
          · cases hs
          · rename_i files1 new_file hcf
            by_cases hfull : d.file_count < MAX_FILES
            · simp [add_file, hc, deref, hd, hfull, store, hlt] at hs
              subst hs
              right
              exact ⟨c, d, d.with_file new_file, hd, rfl, Or.inl rfl⟩
            · simp [add_file, hc, deref, hd, hfull] at hs
              subst hs
              left
              rfl
        · split at hs
          · split at hs
            · cases hs
            · simp only [Option.some.injEq] at hs
              subst hs
              left
              rfl
          · split at hs
            · split at hs
              · cases hs
              · rename_i fs1 out hcd
                simp only [Option.some.injEq] at hs
                subst hs
                left
                unfold change_directory at hcd
                simp only [hc, deref, hd] at hcd
                split at hcd
                · split at hcd
                  · simp only [Option.some.injEq, Prod.mk.injEq] at hcd
                    rw [← hcd.1]
                  · simp only [Option.some.injEq, Prod.mk.injEq] at hcd
                    rw [← hcd.1]
                · split at hcd
                  · cases hcd
                  · simp only [Option.some.injEq, Prod.mk.injEq] at hcd
                    rw [← hcd.1]
                  · simp only [Option.some.injEq, Prod.mk.injEq] at hcd
                    rw [← hcd.1]
            · split at hs
              · unfold do_pwd at hs
                split at hs
                · cases hs
                · split at hs
                  · simp only [Option.some.injEq] at hs
                    subst hs
                    left
                    rfl
                  · cases hs
              · split at hs
                · left
                  exact (do_edit_dirs fs _ stdin s hs).1
                · split at hs
                  · simp only [Option.some.injEq] at hs
                    subst hs
                    left
                    rfl
                  · simp only [Option.some.injEq] at hs
                    subst hs
                    left
                    rfl

theorem parents_below_set (dirs : List Directory) (c : Nat) (d d1 : Directory)
    (h : ParentsBelow dirs) (hd : dirs[c]? = some d) (hpar : d1.parent = d.parent) :
    ParentsBelow (dirs.set c d1) := by
  intro a x b hx hp
  by_cases hac : c = a
  · subst hac
    have hlt : c < dirs.length := lt_length_of_getElem? hd
    rw [List.getElem?_set] at hx
    simp only [if_true, if_pos hlt] at hx
    cases hx
    rw [hpar] at hp
    exact h c d b hd hp
  · rw [List.getElem?_set_ne hac] at hx
    exact h a x b hx hp

theorem parents_below_mkdir (dirs : List Directory) (c : Nat) (d d1 : Directory)
    (name : CStr) (h : ParentsBelow dirs) (hd : dirs[c]? = some d)
    (hpar : d1.parent = d.parent) :
    ParentsBelow ((dirs ++ [new_directory (some c) name]).set c d1) := by
  have hlt : c < dirs.length := lt_length_of_getElem? hd
  intro a x b hx hp
  rcases mkdir_heap_cases dirs c d d1 (new_directory (some c) name) hd a x hx with
    ⟨rfl, rfl⟩ | ⟨rfl, rfl⟩ | ⟨_, hx1⟩
  · rw [hpar] at hp
    exact h a d b hd hp
  · simp only [new_directory, Option.some.injEq] at hp
    omega
  · exact h a x b hx1 hp

/-- In every state that commands reach from the initial state, parent links point to
lower addresses. -/
theorem parents_below_run (cmds : List (List CStr)) :
    ∀ (fs : FileSystem) (stdin : List CStr) (out : Output) (s : Step),
      Wellformed fs → ParentsBelow fs.dirs → run_commands fs stdin out cmds = some s →
      ParentsBelow s.fs.dirs := by
  induction cmds with
  | nil =>
    intro fs stdin out s _ hb hs
    simp only [run_commands, Option.some.injEq] at hs
    subst hs
    exact hb
  | cons words rest ih =>
    intro fs stdin out s hw hb hs
    unfold run_commands at hs
    cases hstep : handle_command fs words stdin with
    | none => simp [hstep] at hs
    | some s1 =>
      have hw1 := wellformed_handle_command fs words stdin s1 hw hstep
      have hb1 : ParentsBelow s1.fs.dirs := by
        rcases handle_command_dirs fs words stdin s1 hw hstep with
          heq | ⟨c, d, d1, hd, hpar, heq | ⟨name, heq⟩⟩
        · rw [heq]; exact hb
        · rw [heq]; exact parents_below_set fs.dirs c d d1 hb hd hpar
        · rw [heq]; exact parents_below_mkdir fs.dirs c d d1 name hb hd hpar
      simp only [hstep] at hs
      split at hs
      · simp only [Option.some.injEq] at hs
        subst hs
        exact hb1
      · exact ih s1.fs s1.stdin _ s hw1 hb1 hs

theorem parents_below_init : ParentsBelow init_filesystem.dirs := by
  intro a d b hd hp
  cases a with
  | zero =>
    simp only [init_filesystem, List.getElem?_cons_zero, Option.some.injEq] at hd
    subst hd
    cases hp
  | succ n => simp [init_filesystem] at hd

/-- With parent links pointing to lower addresses, `get_current_path` of the object at
address `a` returns with any recursion depth above `a`. -/
theorem get_current_path_defined (dirs : List Directory) (h : ParentsBelow dirs) :
    ∀ (a : Nat), a < dirs.length → ∀ (fuel : Nat), a < fuel → ∀ (buf : CStr),
      ∃ path, get_current_path dirs fuel (some a) buf = some path := by
  intro a
  induction a using Nat.strong_induction_on with
  | _ a ih =>
    intro ha fuel hfuel buf
    obtain ⟨f, rfl⟩ : ∃ f, fuel = f + 1 := ⟨fuel - 1, by omega⟩
    have hd : dirs[a]? = some dirs[a] := List.getElem?_eq_getElem ha
    cases hp : (dirs[a]).parent with
    | none =>
      exact ⟨buf ++ (dirs[a]).name, by simp only [get_current_path, deref, hd, hp]⟩
    | some b =>
      have hb : b < a := h a _ b hd hp
      obtain ⟨p1, hp1⟩ := ih b hb (by omega) f (by omega) buf
      exact ⟨(p1 ++ "/".toList) ++ (dirs[a]).name,
        by simp only [get_current_path, deref, hd, hp, hp1]⟩

/-- In every state that commands reach from the initial state, the recursion of
`get_current_path` from the cursor ends within the depth that `pwd` allows, and `pwd`
prints the path when it fits the buffer of `PATH_SIZE` bytes. -/
theorem pwd_defined (cmds : List (List CStr)) (stdin stdin1 : List CStr) (s : Step)
    (h : run_commands init_filesystem stdin [] cmds = some s) :
    ∃ path, get_current_path s.fs.dirs s.fs.dirs.length s.fs.current_dir [] = some path ∧
      (path.length < PATH_SIZE →
        handle_command s.fs ["pwd".toList] stdin1 =
          some ⟨s.fs, ["Current directory: /".toList ++ path ++ "\n".toList], stdin1,
            false⟩) := by
  have hw := wellformed_reached cmds stdin s h
  have hb := parents_below_run cmds init_filesystem stdin [] s wellformed_init
    parents_below_init h
  obtain ⟨c, hc, hlt, _⟩ := hw.cursor
  obtain ⟨path, hpath⟩ := get_current_path_defined s.fs.dirs hb c hlt s.fs.dirs.length hlt []
  rw [← hc] at hpath
  refine ⟨path, hpath, ?_⟩
  intro hfit
  have h0 : 0 < MAX_NAME_LENGTH := by decide
  have hcmd : handle_command s.fs ["pwd".toList] stdin1 = do_pwd s.fs stdin1 := by
    simp [handle_command, h0, CMD_SIZE]
  rw [hcmd]
  unfold do_pwd
  simp only [hpath]
  rw [if_pos hfit]

/-! ## The commands that always have a result -/

theorem collect_defined {β : Type} (f : Nat → Option β) (is : List Nat)
    (h : ∀ i ∈ is, ∃ b, f i = some b) : ∃ bs, collect f is = some bs := by
  induction is with
  | nil => exact ⟨[], rfl⟩
  | cons i is ih =>
    obtain ⟨b, hb⟩ := h i (List.mem_cons_self i is)
    obtain ⟨bs, hbs⟩ := ih (fun j hj => h j (List.mem_cons_of_mem i hj))
    exact ⟨b :: bs, by simp [collect, hb, hbs]⟩

/-- With the invariant and valid entries `list_directory` of the cursor has a result. -/
theorem list_directory_defined (fs : FileSystem) (h : Wellformed fs)
    (he : EntriesValid fs.dirs fs.files) :
    ∃ out, list_directory fs.dirs fs.files fs.current_dir = some out := by
  obtain ⟨c, hc, hlt, _⟩ := h.cursor
  have hd : fs.dirs[c]? = some fs.dirs[c] := List.getElem?_eq_getElem hlt
  obtain ⟨fl, hfl⟩ := collect_defined (file_line fs.files fs.dirs[c])
    (List.range (fs.dirs[c]).file_count) (by
      intro i hi
      obtain ⟨f, h1, h2⟩ := he c _ i hd (List.mem_range.1 hi)
      simp only [file_line, h1, deref, List.getElem?_eq_getElem h2]
      exact ⟨_, rfl⟩)
  obtain ⟨dl, hdl⟩ := collect_defined (subdir_line fs.dirs fs.dirs[c])
    (List.range (fs.dirs[c]).subdir_count) (by
      intro i hi
      obtain ⟨b, sd, h1, h2, _⟩ := h.links c _ i hd (List.mem_range.1 hi)
      simp only [subdir_line, h1, deref, h2]
      exact ⟨_, rfl⟩)
  simp only [list_directory, hc, deref, hd, hfl, hdl]
  exact ⟨_, rfl⟩

theorem entries_valid_mkdir (dirs : List Directory) (files : List File) (c : Nat)
    (d d1 : Directory) (name : CStr) (h : EntriesValid dirs files)
    (hd : dirs[c]? = some d) (hf : d1.files = d.files)
    (hfc : d1.file_count = d.file_count) :
    EntriesValid ((dirs ++ [new_directory (some c) name]).set c d1) files := by
  intro a x i hx hi
  rcases mkdir_heap_cases dirs c d d1 (new_directory (some c) name) hd a x hx with
    ⟨rfl, rfl⟩ | ⟨rfl, rfl⟩ | ⟨_, hx1⟩
  · rw [hfc] at hi
    rw [hf]
    exact h a d i hd hi
  · exact absurd hi (Nat.not_lt_zero i)
  · exact h a x i hx1 hi

theorem entries_valid_touch (dirs : List Directory) (files : List File) (c : Nat)
    (d : Directory) (x : File) (h : EntriesValid dirs files) (hd : dirs[c]? = some d)
    (hfull : d.file_count < MAX_FILES) :
    EntriesValid (dirs.set c (d.with_file (some files.length))) (files ++ [x]) := by
  have hlt : c < dirs.length := lt_length_of_getElem? hd
  intro a y i hy hi
  by_cases hac : c = a
  · subst hac
    rw [List.getElem?_set] at hy
    simp only [if_true, if_pos hlt] at hy
    cases hy
    have hi1 : i < d.file_count + 1 := hi
    by_cases hlast : i = d.file_count
    · subst hlast
      have hcl : d.file_count < d.files.1.length := by rw [d.files.2]; exact hfull
      refine ⟨files.length, ?_, by simp⟩
      simp only [Slots.read, Directory.with_file, Slots.write, List.getElem?_set,
        if_true, hcl]
    · obtain ⟨f, h1, h2⟩ := h c d i hd (by omega)
      refine ⟨f, ?_, by simp; omega⟩
      have hne : d.file_count ≠ i := fun h => hlast h.symm
      simp only [Slots.read, Directory.with_file, Slots.write]
      rw [List.getElem?_set_ne hne]
      exact h1
  · rw [List.getElem?_set_ne hac] at hy
    obtain ⟨f, h1, h2⟩ := h a y i hy hi
    exact ⟨f, h1, by simp; omega⟩

theorem entries_valid_files (dirs : List Directory) (files files1 : List File)
    (h : EntriesValid dirs files) (hlen : files.length ≤ files1.length) :
    EntriesValid dirs files1 := by
  intro a d i hd hi
  obtain ⟨f, h1, h2⟩ := h a d i hd hi
  exact ⟨f, h1, by omega⟩

/-- The objects that the branch `touch` leaves. -/
theorem do_touch_result (fs : FileSystem) (c : Nat) (d : Directory) (arg1 arg2 : CStr)
    (stdin : List CStr) (s : Step) (hc : fs.current_dir = some c)
    (hd : fs.dirs[c]? = some d) (h : do_touch fs arg1 arg2 stdin = some s) :
    ∃ x, s.fs.files = fs.files ++ [x] ∧
      ((s.fs.dirs = fs.dirs.set c (d.with_file (some fs.files.length)) ∧
          d.file_count < MAX_FILES) ∨ s.fs.dirs = fs.dirs) := by
  have hlt : c < fs.dirs.length := lt_length_of_getElem? hd
  by_cases hn : arg1.length < MAX_NAME_LENGTH
  · by_cases hfull : d.file_count < MAX_FILES
    · simp [do_touch, create_file, hn, add_file, hc, deref, hd, hfull, store, hlt] at h
      subst h
      exact ⟨_, rfl, Or.inl ⟨rfl, hfull⟩⟩
    · simp [do_touch, create_file, hn, add_file, hc, deref, hd, hfull] at h
      subst h
      exact ⟨_, rfl, Or.inr rfl⟩
  · simp [do_touch, create_file, hn] at h

/-- Valid entries after `handle_command`, whatever the command. -/
theorem entries_valid_handle_command (fs : FileSystem) (words : List CStr)
    (stdin : List CStr) (s : Step) (h : Wellformed fs)
    (he : EntriesValid fs.dirs fs.files)
    (hs : handle_command fs words stdin = some s) :
    EntriesValid s.fs.dirs s.fs.files := by
  obtain ⟨c, hc, hlt, _⟩ := h.cursor
  obtain ⟨d, hd⟩ : ∃ d, fs.dirs[c]? = some d :=
    ⟨fs.dirs[c], List.getElem?_eq_getElem hlt⟩
  unfold handle_command at hs
  cases words with
  | nil => simp at hs
  | cons cmd args =>
    simp only [] at hs
    split at hs
    · cases hs
    · split at hs
      · obtain ⟨_, hfs, _, _⟩ := do_mkdir_result fs c d _ stdin s hc hd hs
        rw [hfs]
        refine entries_valid_mkdir fs.dirs fs.files c d _ _ he hd ?_ ?_
        · split <;> rfl
        · split <;> rfl
      · split at hs
        · obtain ⟨x, hfiles, hdirs⟩ := do_touch_result fs c d _ _ stdin s hc hd hs
          rw [hfiles]
          rcases hdirs with ⟨hset, hfull⟩ | hsame
          · rw [hset]
            exact entries_valid_touch fs.dirs fs.files c d x he hd hfull
          · rw [hsame]
            exact entries_valid_files fs.dirs fs.files _ he (by simp)
        · split at hs
          · split at hs
            · cases hs
            · simp only [Option.some.injEq] at hs
              subst hs
              exact he
          · split at hs
            · split at hs
              · cases hs
              · rename_i fs1 out hcd
                simp only [Option.some.injEq] at hs
                subst hs
                have hdirs : fs1.dirs = fs.dirs ∧ fs1.files = fs.files := by
                  unfold change_directory at hcd
                  simp only [hc, deref, hd] at hcd
                  split at hcd
                  · split at hcd
                    · simp only [Option.some.injEq, Prod.mk.injEq] at hcd
                      rw [← hcd.1]
                      exact ⟨rfl, rfl⟩
                    · simp only [Option.some.injEq, Prod.mk.injEq] at hcd
                      rw [← hcd.1]
                      exact ⟨rfl, rfl⟩
                  · split at hcd
                    · cases hcd
                    · simp only [Option.some.injEq, Prod.mk.injEq] at hcd
                      rw [← hcd.1]
                      exact ⟨rfl, rfl⟩
                    · simp only [Option.some.injEq, Prod.mk.injEq] at hcd
                      rw [← hcd.1]
                      exact ⟨rfl, rfl⟩
                show EntriesValid fs1.dirs fs1.files
                rw [hdirs.1, hdirs.2]
                exact he
            · split at hs
              · unfold do_pwd at hs
                split at hs
                · cases hs
                · split at hs
                  · simp only [Option.some.injEq] at hs
                    subst hs
                    exact he
                  · cases hs
              · split at hs
                · have hdirs := (do_edit_dirs fs _ stdin s hs).1
                  have hlen : fs.files.length ≤ s.fs.files.length := by
                    unfold do_edit at hs
                    split at hs
                    · cases hs
                    · simp only [Option.some.injEq] at hs
                      subst hs
                      exact Nat.le_refl _
                    · split at hs
                      · cases hs
                      · split at hs
                        · cases hs
                        · simp only [Option.some.injEq] at hs
                          subst hs
                          simp
                  rw [hdirs]
                  exact entries_valid_files fs.dirs fs.files _ he hlen
                · split at hs
                  · simp only [Option.some.injEq] at hs
                    subst hs
                    exact he
                  · simp only [Option.some.injEq] at hs
                    subst hs
                    exact he

/-- A plain command has a result in every state with the invariant and valid entries;
it leaves the input of the editor unread and does not leave the process. -/
theorem plain_command_defined (fs : FileSystem) (words : List CStr) (stdin : List CStr)
    (h : Wellformed fs) (he : EntriesValid fs.dirs fs.files)
    (hp : plain_command words = true) :
    ∃ s, handle_command fs words stdin = some s ∧ s.stdin = stdin ∧ s.exited = false := by
  obtain ⟨c, hc, hlt, _⟩ := h.cursor
  have hd : fs.dirs[c]? = some fs.dirs[c] := List.getElem?_eq_getElem hlt
  have h0 : 0 < MAX_NAME_LENGTH := by decide
  match words, hp with
  | [cmd], hp =>
    simp only [plain_command, decide_eq_true_eq] at hp
    subst hp
    obtain ⟨out, hout⟩ := list_directory_defined fs h he
    exact ⟨⟨fs, out, stdin, false⟩, by simp [handle_command, h0, CMD_SIZE, hout], rfl, rfl⟩
  | [cmd, arg1], hp =>
    simp only [plain_command, Bool.and_eq_true, Bool.or_eq_true, decide_eq_true_eq] at hp
    obtain ⟨hcmd, hfit⟩ := hp
    rcases hcmd with rfl | rfl
    · obtain ⟨out, hmk⟩ := handle_command_mkdir fs c _ arg1 stdin hc hd hfit
      exact ⟨_, hmk, rfl, rfl⟩
    · have hcmd : handle_command fs ["cd".toList, arg1] stdin =
          match change_directory fs arg1 with
          | none => none
          | some (fs1, out) => some ⟨fs1, out, stdin, false⟩ := by
        simp [handle_command, hfit, h0, CMD_SIZE]
      rw [hcmd]
      have hcd : ∃ r, change_directory fs arg1 = some r := by
        unfold change_directory
        simp only [hc, deref, hd]
        split
        · split <;> exact ⟨_, rfl⟩
        · rcases change_directory_scan_wellformed fs h c _ arg1 hd
            (List.range (fs.dirs[c]).subdir_count) (fun i hi => List.mem_range.1 hi) with
            ⟨hn, _⟩ | ⟨b, sb, hscan, _⟩
          · rw [hn]
            exact ⟨_, rfl⟩
          · rw [hscan]
            exact ⟨_, rfl⟩
      obtain ⟨⟨fs1, out⟩, hr⟩ := hcd
      rw [hr]
      exact ⟨_, rfl, rfl, rfl⟩
  | [cmd, arg1, arg2], hp =>
    simp only [plain_command, Bool.and_eq_true, decide_eq_true_eq] at hp
    obtain ⟨⟨rfl, hfit1⟩, hfit2⟩ := hp
    have hcmd : handle_command fs ["touch".toList, arg1, arg2] stdin =
        do_touch fs arg1 arg2 stdin := by
      simp [handle_command, hfit1, hfit2, CMD_SIZE]
    rw [hcmd]
    by_cases hfull : (fs.dirs[c]).file_count < MAX_FILES
    · simp [do_touch, create_file, hfit1, add_file, hc, deref, hd, hfull, store, hlt]
    · simp [do_touch, create_file, hfit1, add_file, hc, deref, hd, hfull]

/-- Every sequence of plain commands from the initial state runs to its end: no
sequence of `mkdir`, `touch`, `cd` and `ls` with words that fit is undefined. -/
theorem plain_commands_defined (cmds : List (List CStr)) :
    ∀ (fs : FileSystem) (stdin : List CStr) (out : Output),
      Wellformed fs → EntriesValid fs.dirs fs.files →
      (∀ words ∈ cmds, plain_command words = true) →
      ∃ s, run_commands fs stdin out cmds = some s ∧ s.exited = false := by
  induction cmds with
  | nil => intro fs stdin out _ _ _; exact ⟨_, rfl, rfl⟩
  | cons words rest ih =>
    intro fs stdin out hw he hp
    obtain ⟨s1, hs1, _, hex⟩ := plain_command_defined fs words stdin hw he
      (hp words (List.mem_cons_self words rest))
    have hw1 := wellformed_handle_command fs words stdin s1 hw hs1
    have he1 := entries_valid_handle_command fs words stdin s1 hw he hs1
    obtain ⟨s, hs, hse⟩ := ih s1.fs s1.stdin (out ++ s1.out) hw1 he1
      (fun w hw2 => hp w (List.mem_cons_of_mem words hw2))
    refine ⟨s, ?_, hse⟩
    unfold run_commands
    simp only [hs1, hex]
    exact hs

/-- From the initial state every sequence of plain commands reaches a state: the
states of the invariants above include all that `mkdir`, `touch`, `cd` and `ls` with
fitting words lead to. -/
theorem plain_commands_reach (cmds : List (List CStr)) (stdin : List CStr)
    (hp : ∀ words ∈ cmds, plain_command words = true) :
    ∃ s, run_commands init_filesystem stdin [] cmds = some s ∧ s.exited = false := by
  refine plain_commands_defined cmds init_filesystem stdin [] wellformed_init ?_ hp
  intro a d i hd hi
  cases a with
  | zero =>
    simp only [init_filesystem, List.getElem?_cons_zero, Option.some.injEq] at hd
    subst hd
    simp at hi
  | succ n => simp [init_filesystem] at hd

end SOCDOS
